import Mathlib

set_option linter.unusedSectionVars false

/-! TTauri `wfree_unordered_map`: sequential semantics.

Shallow embedding of `src/TTauri/wfree_unordered_map.hpp`: a fixed-capacity
open-addressing map with linear probing whose slots carry a combined
state/hash tag.  The three member functions `insert`, `get` and `erase` are
`while (true)` loops; a loop is run by `whileTrue` with an explicit bound on
the number of iterations, and `none` means that the bound was reached before
a `return`.
-/

namespace TTauri

/-- Slot of the table (`wait_free_unordered_map_item<K,V>`).  The field `hash`
doubles as state tag: 0 = empty, 1 = busy, 2 = tombstone (per the source
comment), anything else is the hash of the stored key. -/
structure wait_free_unordered_map_item (K V : Type) where
  value : V
  hash : Nat
  key : K

/-- The member `items` (a `std::array` of `CAPACITY` slots), as its indexing
function.  Only indices below `CAPACITY` are ever read or written. -/
abbrev Items (K V : Type) := Nat → wait_free_unordered_map_item K V

/-- The constant `static constexpr size_t CAPACITY = MAX_NR_ITEMS * 2`.  A
`std::array` of that many slots exists only when the product does not wrap,
so the product is taken in the natural numbers. -/
def CAPACITY (MAX_NR_ITEMS : Nat) : Nat := MAX_NR_ITEMS * 2

/-- Static member `make_hash`: the natural hash `std::hash<K>` (a parameter
here), moved out of the reserved range 0, 1, 2. -/
def make_hash {K : Type} (std_hash : K → Nat) (key : K) : Nat :=
  let hash := std_hash key
  if hash ≥ 3 then hash else hash + 3

/-- Outcome of one iteration of a `while (true)` loop: a `return`, or the next
value of the loop variable `index`. -/
inductive Step (ρ : Type) where
  | done (result : ρ)
  | again (index : Nat)

/-- Runs a `while (true)` loop whose body is `body`, for at most `fuel`
iterations, starting with loop variable `index`. -/
def whileTrue {ρ : Type} (body : Nat → Step ρ) : Nat → Nat → Option ρ
  | 0, _ => none
  | fuel + 1, index =>
    match body index with
    | Step.done r => some r
    | Step.again index2 => whileTrue body fuel index2

/-- The slot indices inspected by the first `fuel` iterations of the loop, in
order (one slot, `items[index]`, per iteration). -/
def probes {ρ : Type} (body : Nat → Step ρ) : Nat → Nat → List Nat
  | 0, _ => []
  | fuel + 1, index =>
    index :: (match body index with
      | Step.done _ => []
      | Step.again index2 => probes body fuel index2)

section Operations

variable {K V : Type} [DecidableEq K]

/-- Body of the loop of `insert`.  Single-threaded, the compare-exchange of
`item.hash` from 0 to 1 succeeds exactly when the tag is 0, and the winner
then writes key, value and finally the real hash. -/
def insertBody (MAX_NR_ITEMS : Nat) (items : Items K V) (hash : Nat) (key : K) (value : V)
    (index : Nat) : Step (Items K V) :=
  let item := items index
  if item.hash = 0 then
    Step.done (Function.update items index { value := value, hash := hash, key := key })
  else if item.hash = hash ∧ key = item.key then
    Step.done (Function.update items index { value := value, hash := item.hash, key := item.key })
  else
    Step.again ((index + 1) % CAPACITY MAX_NR_ITEMS)

/-- Member function `insert(key, value)`; `none` when `fuel` iterations did not
reach a `return`. -/
def insert (MAX_NR_ITEMS : Nat) (std_hash : K → Nat) (fuel : Nat) (items : Items K V)
    (key : K) (value : V) : Option (Items K V) :=
  let hash := make_hash std_hash key
  whileTrue (insertBody MAX_NR_ITEMS items hash key value) fuel (hash % CAPACITY MAX_NR_ITEMS)

/-- Body of the loop of `get`. -/
def getBody (MAX_NR_ITEMS : Nat) (items : Items K V) (hash : Nat) (key : K)
    (index : Nat) : Step (Option V) :=
  let item := items index
  let item_hash := item.hash
  if item_hash = hash ∧ key = item.key then
    Step.done (some item.value)
  else if item_hash = 0 then
    Step.done none
  else
    Step.again ((index + 1) % CAPACITY MAX_NR_ITEMS)

/-- Member function `get(key)`: `some (some v)` is a found value, `some none`
is the empty optional, `none` means the loop is still running. -/
def get (MAX_NR_ITEMS : Nat) (std_hash : K → Nat) (fuel : Nat) (items : Items K V)
    (key : K) : Option (Option V) :=
  let hash := make_hash std_hash key
  whileTrue (getBody MAX_NR_ITEMS items hash key) fuel (hash % CAPACITY MAX_NR_ITEMS)

/-- Body of the loop of `erase`: on a match the tag is overwritten with the
constant 1 and the stored value is returned. -/
def eraseBody (MAX_NR_ITEMS : Nat) (items : Items K V) (hash : Nat) (key : K)
    (index : Nat) : Step (Option V × Items K V) :=
  let item := items index
  let item_hash := item.hash
  if item_hash = hash ∧ key = item.key then
    Step.done (some item.value,
      Function.update items index { value := item.value, hash := 1, key := item.key })
  else if item_hash = 0 then
    Step.done (none, items)
  else
    Step.again ((index + 1) % CAPACITY MAX_NR_ITEMS)

/-- Member function `erase(key)`: the returned optional together with the
table after the call. -/
def erase (MAX_NR_ITEMS : Nat) (std_hash : K → Nat) (fuel : Nat) (items : Items K V)
    (key : K) : Option (Option V × Items K V) :=
  let hash := make_hash std_hash key
  whileTrue (eraseBody MAX_NR_ITEMS items hash key) fuel (hash % CAPACITY MAX_NR_ITEMS)

/-- Slot indices inspected by `insert` within `fuel` iterations. -/
def insertProbes (MAX_NR_ITEMS : Nat) (std_hash : K → Nat) (fuel : Nat) (items : Items K V)
    (key : K) (value : V) : List Nat :=
  let hash := make_hash std_hash key
  probes (insertBody MAX_NR_ITEMS items hash key value) fuel (hash % CAPACITY MAX_NR_ITEMS)

/-- Slot indices inspected by `get` within `fuel` iterations. -/
def getProbes (MAX_NR_ITEMS : Nat) (std_hash : K → Nat) (fuel : Nat) (items : Items K V)
    (key : K) : List Nat :=
  let hash := make_hash std_hash key
  probes (getBody MAX_NR_ITEMS items hash key) fuel (hash % CAPACITY MAX_NR_ITEMS)

/-- Slot indices inspected by `erase` within `fuel` iterations. -/
def eraseProbes (MAX_NR_ITEMS : Nat) (std_hash : K → Nat) (fuel : Nat) (items : Items K V)
    (key : K) : List Nat :=
  let hash := make_hash std_hash key
  probes (eraseBody MAX_NR_ITEMS items hash key) fuel (hash % CAPACITY MAX_NR_ITEMS)

/-- The value-initialised table (`items = {}`): every slot has tag 0 and
default key and value. -/
def emptyItems [Inhabited K] [Inhabited V] : Items K V :=
  fun _ => { value := default, hash := 0, key := default }

/-- The two-slot table (`MAX_NR_ITEMS = 1`, keys hashed by their value) after
`insert(5, 7)`: key 5 lives in slot 1. -/
def exampleLive : Items Nat Nat :=
  Function.update emptyItems 1 { value := 7, hash := 5, key := 5 }

/-- The table `exampleLive` after `erase(5)`: slot 1 carries tag 1. -/
def exampleRetired : Items Nat Nat :=
  Function.update exampleLive 1 { value := 7, hash := 1, key := 5 }

/-- The table `exampleRetired` after `insert(5, 8)`: the key is stored again,
in slot 0. -/
def exampleReinserted : Items Nat Nat :=
  Function.update exampleRetired 0 { value := 8, hash := 5, key := 5 }

/-- A call that changes the table. -/
inductive Op (K V : Type) where
  | insert (key : K) (value : V)
  | erase (key : K)

/-- Key an operation is called with. -/
def Op.key {K V : Type} : Op K V → K
  | Op.insert k _ => k
  | Op.erase k => k

/-- Relation `Runs N h t0 ops t`: starting from the table `t0`, the completed calls
`ops` (most recent first), executed one after another by a single thread,
lead to the table `t`.  Each call may take any number of loop iterations. -/
inductive Runs (MAX_NR_ITEMS : Nat) (std_hash : K → Nat) (t0 : Items K V) :
    List (Op K V) → Items K V → Prop where
  | nil : Runs MAX_NR_ITEMS std_hash t0 [] t0
  | insert {ops : List (Op K V)} {t t2 : Items K V} (fuel : Nat) (key : K) (value : V) :
      Runs MAX_NR_ITEMS std_hash t0 ops t →
      TTauri.insert MAX_NR_ITEMS std_hash fuel t key value = some t2 →
      Runs MAX_NR_ITEMS std_hash t0 (Op.insert key value :: ops) t2
  | erase {ops : List (Op K V)} {t t2 : Items K V} (fuel : Nat) (key : K) (r : Option V) :
      Runs MAX_NR_ITEMS std_hash t0 ops t →
      TTauri.erase MAX_NR_ITEMS std_hash fuel t key = some (r, t2) →
      Runs MAX_NR_ITEMS std_hash t0 (Op.erase key :: ops) t2

/-- Predicate `ReachableBy N h ops t`: the table `t` results from the value-initialised
table by the completed calls `ops` (most recent first). -/
def ReachableBy [Inhabited K] [Inhabited V] (MAX_NR_ITEMS : Nat) (std_hash : K → Nat)
    (ops : List (Op K V)) (items : Items K V) : Prop :=
  Runs MAX_NR_ITEMS std_hash emptyItems ops items

/-- The table has a slot (below `CAPACITY`) whose tag is 0. -/
def hasEmpty (MAX_NR_ITEMS : Nat) (items : Items K V) : Prop :=
  ∃ i, i < CAPACITY MAX_NR_ITEMS ∧ (items i).hash = 0

/-- The table `exampleReinserted` after a second `erase(5)`: both slots of the
two-slot table carry tag 1 and no key is stored under its hash. -/
def exampleFull : Items Nat Nat :=
  Function.update exampleReinserted 0 { value := 8, hash := 1, key := 5 }

/-- The table `exampleLive` after `insert(4, 9)`: key 4 lives in slot 0 and
key 5 in slot 1. -/
def exampleTwoKeys : Items Nat Nat :=
  Function.update exampleLive 0 { value := 9, hash := 4, key := 4 }

/-- Relation `RunsFresh N h t0 n t`: a sequence of completed single-threaded
calls leads from `t0` to `t`, and `n` of the calls were an `insert` of a key
that was not live at the time (a `get` of the key returned the empty
optional); the other calls were an `insert` of a live key or an `erase`. -/
inductive RunsFresh (MAX_NR_ITEMS : Nat) (std_hash : K → Nat) (t0 : Items K V) :
    Nat → Items K V → Prop where
  | nil : RunsFresh MAX_NR_ITEMS std_hash t0 0 t0
  | fresh {n : Nat} {t t2 : Items K V} (fuel fuel2 : Nat) (key : K) (value : V) :
      RunsFresh MAX_NR_ITEMS std_hash t0 n t →
      TTauri.get MAX_NR_ITEMS std_hash fuel2 t key = some none →
      TTauri.insert MAX_NR_ITEMS std_hash fuel t key value = some t2 →
      RunsFresh MAX_NR_ITEMS std_hash t0 (n + 1) t2
  | replace {n : Nat} {t t2 : Items K V} (fuel fuel2 : Nat) (key : K) (value v0 : V) :
      RunsFresh MAX_NR_ITEMS std_hash t0 n t →
      TTauri.get MAX_NR_ITEMS std_hash fuel2 t key = some (some v0) →
      TTauri.insert MAX_NR_ITEMS std_hash fuel t key value = some t2 →
      RunsFresh MAX_NR_ITEMS std_hash t0 n t2
  | erase {n : Nat} {t t2 : Items K V} (fuel : Nat) (key : K) (r : Option V) :
      RunsFresh MAX_NR_ITEMS std_hash t0 n t →
      TTauri.erase MAX_NR_ITEMS std_hash fuel t key = some (r, t2) →
      RunsFresh MAX_NR_ITEMS std_hash t0 n t2

/-- Whether `key` is live after the history `ops` (most recent call first):
the most recent call on `key` is an `insert`. -/
def liveIn (key : K) : List (Op K V) → Bool
  | [] => false
  | Op.insert k2 _ :: rest => if k2 = key then true else liveIn key rest
  | Op.erase k2 :: rest => if k2 = key then false else liveIn key rest

/-- The number of `insert(key, ·)` calls of the history `ops` (most recent
call first) that were made while `key` was not live. -/
def slotsOf (key : K) : List (Op K V) → Nat
  | [] => 0
  | Op.insert k2 _ :: rest =>
    slotsOf key rest + (if k2 = key ∧ liveIn key rest = false then 1 else 0)
  | Op.erase _ :: rest => slotsOf key rest

/-- No `insert(key, ·)` of the history `ops` (most recent call first) follows
an `erase(key)`. -/
def noReinsert (key : K) : List (Op K V) → Prop
  | [] => True
  | Op.insert k2 _ :: rest => (k2 = key → Op.erase key ∉ rest) ∧ noReinsert key rest
  | Op.erase _ :: rest => noReinsert key rest

end Operations


section ProofDevices

variable {K V : Type} [DecidableEq K]

/-- Transport of a loop outcome along a function on results. -/
def Step.map {α β : Type} (f : α → β) : Step α → Step β
  | Step.done r => Step.done (f r)
  | Step.again i => Step.again i

/-- Probing for `(hash, key)` stops at slot `i`: the slot is empty or holds
the key under its hash.  All three loops return exactly at such a slot. -/
def stops (items : Items K V) (hash : Nat) (key : K) (i : Nat) : Prop :=
  (items i).hash = 0 ∨ ((items i).hash = hash ∧ key = (items i).key)

instance stopsDecidable (items : Items K V) (hash : Nat) (key : K) (i : Nat) :
    Decidable (stops items hash key i) := by
  unfold stops; infer_instance

/-- The common skeleton of the three loop bodies: return the index of the
first slot at which probing stops. -/
def findBody (MAX_NR_ITEMS : Nat) (items : Items K V) (hash : Nat) (key : K)
    (index : Nat) : Step Nat :=
  if stops items hash key index then Step.done index
  else Step.again ((index + 1) % CAPACITY MAX_NR_ITEMS)

/-- Index of the slot at which `insert`, `get` and `erase` of `key` return. -/
def findSlot (MAX_NR_ITEMS : Nat) (std_hash : K → Nat) (fuel : Nat) (items : Items K V)
    (key : K) : Option Nat :=
  whileTrue (findBody MAX_NR_ITEMS items (make_hash std_hash key) key) fuel
    (make_hash std_hash key % CAPACITY MAX_NR_ITEMS)

/-- What `insert` writes when it returns at slot `j`. -/
def insertAt (items : Items K V) (hash : Nat) (key : K) (value : V) (j : Nat) : Items K V :=
  if (items j).hash = 0 then
    Function.update items j { value := value, hash := hash, key := key }
  else
    Function.update items j { value := value, hash := (items j).hash, key := (items j).key }

/-- What `get` returns when it stops at slot `j`. -/
def getAt (items : Items K V) (j : Nat) : Option V :=
  if (items j).hash = 0 then none else some (items j).value

/-- What `erase` returns and writes when it stops at slot `j`. -/
def eraseAt (items : Items K V) (j : Nat) : Option V × Items K V :=
  if (items j).hash = 0 then (none, items)
  else (some (items j).value,
    Function.update items j { value := (items j).value, hash := 1, key := (items j).key })

/-- Invariant of the tables reachable by single-threaded calls: a slot with a
published tag carries the hash of its key, and probing for that key stops at
this very slot (so no empty slot and no second copy of the key precedes it). -/
def Inv (MAX_NR_ITEMS : Nat) (std_hash : K → Nat) (items : Items K V) : Prop :=
  ∀ j, j < CAPACITY MAX_NR_ITEMS → 3 ≤ (items j).hash →
    (items j).hash = make_hash std_hash (items j).key ∧
      findSlot MAX_NR_ITEMS std_hash (CAPACITY MAX_NR_ITEMS) items (items j).key = some j

/-- The indices of the empty slots of the table. -/
def emptySlots (MAX_NR_ITEMS : Nat) (items : Items K V) : Finset Nat :=
  (Finset.range (CAPACITY MAX_NR_ITEMS)).filter (fun i => (items i).hash = 0)

/-- The indices of the non-empty slots of the table. -/
def usedSlots (MAX_NR_ITEMS : Nat) (items : Items K V) : Finset Nat :=
  (Finset.range (CAPACITY MAX_NR_ITEMS)).filter (fun i => (items i).hash ≠ 0)

/-- The indices of the non-empty slots that store `key`. -/
def keySlots (MAX_NR_ITEMS : Nat) (items : Items K V) (key : K) : Finset Nat :=
  (Finset.range (CAPACITY MAX_NR_ITEMS)).filter
    (fun j => (items j).hash ≠ 0 ∧ (items j).key = key)

end ProofDevices

/-! ## The loop driver -/

theorem whileTrue_map {α β : Type} (f : α → β) (b1 : Nat → Step α) (b2 : Nat → Step β)
    (h : ∀ i, b2 i = (b1 i).map f) (fuel index : Nat) :
    whileTrue b2 fuel index = (whileTrue b1 fuel index).map f := by
  induction fuel generalizing index with
  | zero => rfl
  | succ n ih =>
    simp only [whileTrue, h index]
    cases hb : b1 index with
    | done r => simp [Step.map]
    | again i => simp [Step.map, ih]

theorem probes_map {α β : Type} (f : α → β) (b1 : Nat → Step α) (b2 : Nat → Step β)
    (h : ∀ i, b2 i = (b1 i).map f) (fuel index : Nat) :
    probes b2 fuel index = probes b1 fuel index := by
  induction fuel generalizing index with
  | zero => rfl
  | succ n ih =>
    simp only [probes, h index]
    cases hb : b1 index with
    | done r => simp [Step.map]
    | again i => simp [Step.map, ih]

/-- The loop over a stop predicate returns the first index of the sequence
`s % c, (s + 1) % c, ...` at which the predicate holds. -/
theorem scan_eq_some_iff (c : Nat) (P : Nat → Prop) [DecidablePred P] (fuel s j : Nat) :
    whileTrue (fun i => if P i then Step.done i else Step.again ((i + 1) % c)) fuel (s % c)
        = some j ↔
      ∃ d, d < fuel ∧ j = (s + d) % c ∧ P j ∧ ∀ e, e < d → ¬ P ((s + e) % c) := by
  induction fuel generalizing s with
  | zero => simp [whileTrue]
  | succ n ih =>
    simp only [whileTrue]
    by_cases hP : P (s % c)
    · simp only [hP, if_true, Option.some.injEq]
      constructor
      · intro h
        subst h
        exact ⟨0, by omega, by simp, hP, by intro e he; omega⟩
      · rintro ⟨d, _, hj, _, hmin⟩
        rcases Nat.eq_zero_or_pos d with h0 | hpos
        · subst h0; simpa using hj.symm
        · exact absurd (by simpa using hP) (hmin 0 hpos)
    · simp only [hP, if_false]
      rw [Nat.mod_add_mod, ih (s + 1)]
      constructor
      · rintro ⟨d, hd, hj, hPj, hmin⟩
        refine ⟨d + 1, by omega, by rw [hj]; congr 1; omega, hPj, ?_⟩
        intro e he
        rcases Nat.eq_zero_or_pos e with h0 | hpos
        · subst h0; simpa using hP
        · have := hmin (e - 1) (by omega)
          have he2 : s + 1 + (e - 1) = s + e := by omega
          rwa [he2] at this
      · rintro ⟨d, hd, hj, hPj, hmin⟩
        rcases Nat.eq_zero_or_pos d with h0 | hpos
        · subst h0
          rw [hj] at hPj
          exact absurd (by simpa using hPj) hP
        · refine ⟨d - 1, by omega, by rw [hj]; congr 1; omega, hPj, ?_⟩
          intro e he
          have := hmin (e + 1) (by omega)
          have he2 : s + (e + 1) = s + 1 + e := by omega
          rwa [he2] at this

theorem scan_eq_none_iff (c : Nat) (P : Nat → Prop) [DecidablePred P] (fuel s : Nat) :
    whileTrue (fun i => if P i then Step.done i else Step.again ((i + 1) % c)) fuel (s % c)
        = none ↔
      ∀ d, d < fuel → ¬ P ((s + d) % c) := by
  induction fuel generalizing s with
  | zero => simp [whileTrue]
  | succ n ih =>
    simp only [whileTrue]
    by_cases hP : P (s % c)
    · simp only [hP, if_true]
      constructor
      · intro h; cases h
      · intro h; exact absurd (by simpa using hP) (h 0 (by omega))
    · simp only [hP, if_false]
      rw [Nat.mod_add_mod, ih (s + 1)]
      constructor
      · intro h d hd
        rcases Nat.eq_zero_or_pos d with h0 | hpos
        · subst h0; simpa using hP
        · have := h (d - 1) (by omega)
          have he2 : s + 1 + (d - 1) = s + d := by omega
          rwa [he2] at this
      · intro h d hd
        have := h (d + 1) (by omega)
        have he2 : s + (d + 1) = s + 1 + d := by omega
        rwa [he2] at this

/-- Every index below `c` lies on the probe sequence, at an offset below `c`. -/
theorem exists_offset (c s i : Nat) (hi : i < c) : ∃ d, d < c ∧ (s + d) % c = i := by
  have hr : s % c < c := Nat.mod_lt _ (by omega)
  by_cases h : s % c ≤ i
  · refine ⟨i - s % c, by omega, ?_⟩
    rw [← Nat.mod_add_mod]
    have : s % c + (i - s % c) = i := by omega
    rw [this, Nat.mod_eq_of_lt hi]
  · refine ⟨i + c - s % c, by omega, ?_⟩
    rw [← Nat.mod_add_mod]
    have : s % c + (i + c - s % c) = i + c := by omega
    rw [this, Nat.add_mod_right, Nat.mod_eq_of_lt hi]

/-- Offsets below `c` give pairwise different indices. -/
theorem offset_injective (c s d e : Nat) (hd : d < c) (he : e < c)
    (h : (s + d) % c = (s + e) % c) : d = e := by
  have h1 : d ≡ e [MOD c] := Nat.ModEq.add_left_cancel' s h
  have h2 : d % c = e % c := h1
  rwa [Nat.mod_eq_of_lt hd, Nat.mod_eq_of_lt he] at h2

/-! ## The three operations return at the same slot -/

theorem make_hash_ge {K : Type} (std_hash : K → Nat) (k : K) : 3 ≤ make_hash std_hash k := by
  unfold make_hash
  simp only
  split <;> omega

theorem make_hash_ne_zero {K : Type} (std_hash : K → Nat) (k : K) : make_hash std_hash k ≠ 0 := by
  have := make_hash_ge std_hash k
  omega

section Basic

variable {K V : Type} [DecidableEq K]

theorem capacity_pos {N : Nat} (hN : 1 ≤ N) : 0 < CAPACITY N := by
  unfold CAPACITY; omega

theorem insertBody_eq (N : Nat) (t : Items K V) (hash : Nat) (k : K) (v : V) (i : Nat) :
    insertBody N t hash k v i = (findBody N t hash k i).map (insertAt t hash k v) := by
  unfold insertBody findBody insertAt stops
  by_cases h0 : (t i).hash = 0
  · simp [h0, Step.map]
  · by_cases hm : (t i).hash = hash ∧ k = (t i).key
    · simp [h0, hm, Step.map]
    · simp [h0, hm, Step.map]

theorem getBody_eq (N : Nat) (t : Items K V) (hash : Nat) (hh : hash ≠ 0) (k : K) (i : Nat) :
    getBody N t hash k i = (findBody N t hash k i).map (getAt t) := by
  unfold getBody findBody getAt stops
  by_cases hm : (t i).hash = hash ∧ k = (t i).key
  · have h0 : (t i).hash ≠ 0 := by rw [hm.1]; exact hh
    simp only [if_pos hm, if_pos (Or.inr hm : (t i).hash = 0 ∨ _), Step.map, if_neg h0]
  · by_cases h0 : (t i).hash = 0
    · simp only [if_neg hm, if_pos h0, if_pos (Or.inl h0 : _ ∨ ((t i).hash = hash ∧ k = (t i).key)),
        Step.map]
    · have hn : ¬ ((t i).hash = 0 ∨ ((t i).hash = hash ∧ k = (t i).key)) := by tauto
      simp only [if_neg hm, if_neg h0, if_neg hn, Step.map]

theorem eraseBody_eq (N : Nat) (t : Items K V) (hash : Nat) (hh : hash ≠ 0) (k : K) (i : Nat) :
    eraseBody N t hash k i = (findBody N t hash k i).map (eraseAt t) := by
  unfold eraseBody findBody eraseAt stops
  by_cases hm : (t i).hash = hash ∧ k = (t i).key
  · have h0 : (t i).hash ≠ 0 := by rw [hm.1]; exact hh
    simp only [if_pos hm, if_pos (Or.inr hm : (t i).hash = 0 ∨ _), Step.map, if_neg h0]
  · by_cases h0 : (t i).hash = 0
    · simp only [if_neg hm, if_pos h0, if_pos (Or.inl h0 : _ ∨ ((t i).hash = hash ∧ k = (t i).key)),
        Step.map]
    · have hn : ¬ ((t i).hash = 0 ∨ ((t i).hash = hash ∧ k = (t i).key)) := by tauto
      simp only [if_neg hm, if_neg h0, if_neg hn, Step.map]

theorem insert_eq (N : Nat) (h : K → Nat) (fuel : Nat) (t : Items K V) (k : K) (v : V) :
    insert N h fuel t k v = (findSlot N h fuel t k).map (insertAt t (make_hash h k) k v) :=
  whileTrue_map _ _ _ (insertBody_eq N t (make_hash h k) k v) _ _

theorem get_eq (N : Nat) (h : K → Nat) (fuel : Nat) (t : Items K V) (k : K) :
    get N h fuel t k = (findSlot N h fuel t k).map (getAt t) :=
  whileTrue_map _ _ _ (getBody_eq N t (make_hash h k) (make_hash_ne_zero h k) k) _ _

theorem erase_eq (N : Nat) (h : K → Nat) (fuel : Nat) (t : Items K V) (k : K) :
    erase N h fuel t k = (findSlot N h fuel t k).map (eraseAt t) :=
  whileTrue_map _ _ _ (eraseBody_eq N t (make_hash h k) (make_hash_ne_zero h k) k) _ _

theorem findSlot_eq_some_iff (N : Nat) (h : K → Nat) (fuel : Nat) (t : Items K V) (k : K)
    (j : Nat) :
    findSlot N h fuel t k = some j ↔
      ∃ d, d < fuel ∧ j = (make_hash h k + d) % CAPACITY N ∧ stops t (make_hash h k) k j ∧
        ∀ e, e < d → ¬ stops t (make_hash h k) k ((make_hash h k + e) % CAPACITY N) :=
  scan_eq_some_iff (CAPACITY N) (stops t (make_hash h k) k) fuel (make_hash h k) j

theorem findSlot_eq_none_iff (N : Nat) (h : K → Nat) (fuel : Nat) (t : Items K V) (k : K) :
    findSlot N h fuel t k = none ↔
      ∀ d, d < fuel → ¬ stops t (make_hash h k) k ((make_hash h k + d) % CAPACITY N) :=
  scan_eq_none_iff (CAPACITY N) (stops t (make_hash h k) k) fuel (make_hash h k)

/-- The stop slot is a slot of the table and probing stops there. -/
theorem findSlot_stops {N : Nat} (hN : 1 ≤ N) {h : K → Nat} {fuel : Nat} {t : Items K V} {k : K}
    {j : Nat} (hf : findSlot N h fuel t k = some j) :
    j < CAPACITY N ∧ stops t (make_hash h k) k j := by
  obtain ⟨d, _, hj, hs, _⟩ := (findSlot_eq_some_iff N h fuel t k j).1 hf
  exact ⟨hj ▸ Nat.mod_lt _ (capacity_pos hN), hs⟩

/-- A loop that returns does so within `CAPACITY` iterations, and more fuel
does not change where. -/
theorem findSlot_fuel {N : Nat} (hN : 1 ≤ N) {h : K → Nat} {fuel : Nat} {t : Items K V} {k : K}
    {j : Nat} (hf : findSlot N h fuel t k = some j) {m : Nat} (hm : CAPACITY N ≤ m) :
    findSlot N h m t k = some j := by
  obtain ⟨d, hd, hj, hs, hmin⟩ := (findSlot_eq_some_iff N h fuel t k j).1 hf
  have hjc : j < CAPACITY N := hj ▸ Nat.mod_lt _ (capacity_pos hN)
  obtain ⟨d2, hd2, hd2j⟩ := exists_offset (CAPACITY N) (make_hash h k) j hjc
  have hdc : d < CAPACITY N := by
    by_contra hge
    exact hmin d2 (by omega) (hd2j ▸ hs)
  exact (findSlot_eq_some_iff N h m t k j).2 ⟨d, by omega, hj, hs, hmin⟩

/-- If probing can stop at some slot of the table, the loop returns within
`CAPACITY` iterations. -/
theorem findSlot_isSome {N : Nat} (h : K → Nat) {t : Items K V} {k : K} {i : Nat}
    (hi : i < CAPACITY N) (hs : stops t (make_hash h k) k i) :
    ∃ j, findSlot N h (CAPACITY N) t k = some j := by
  cases hf : findSlot N h (CAPACITY N) t k with
  | some j => exact ⟨j, rfl⟩
  | none =>
    obtain ⟨d, hd, hdi⟩ := exists_offset (CAPACITY N) (make_hash h k) i hi
    exact absurd (hdi ▸ hs) ((findSlot_eq_none_iff N h _ t k).1 hf d hd)

/-- The stop slot depends only on which slots stop the probing. -/
theorem findSlot_congr (N : Nat) (h : K → Nat) (fuel : Nat) (t t2 : Items K V) (k : K)
    (hst : ∀ i, stops t2 (make_hash h k) k i ↔ stops t (make_hash h k) k i) :
    findSlot N h fuel t2 k = findSlot N h fuel t k := by
  have hb : findBody N t2 (make_hash h k) k = findBody N t (make_hash h k) k := by
    funext i
    unfold findBody
    exact if_congr (hst i) rfl rfl
  unfold findSlot
  rw [hb]

/-- Changing a slot at which probing would stop anyway does not move an
earlier stop. -/
theorem findSlot_update_of_ne (N : Nat) (h : K → Nat) (fuel : Nat) (t : Items K V) (k : K)
    (s : Nat) (x : wait_free_unordered_map_item K V) (j : Nat)
    (hf : findSlot N h fuel t k = some j) (hs : stops t (make_hash h k) k s) (hne : j ≠ s) :
    findSlot N h fuel (Function.update t s x) k = some j := by
  obtain ⟨d, hd, hj, hsj, hmin⟩ := (findSlot_eq_some_iff N h fuel t k j).1 hf
  refine (findSlot_eq_some_iff N h fuel _ k j).2 ⟨d, hd, hj, ?_, ?_⟩
  · unfold stops at hsj ⊢
    rwa [Function.update_noteq hne]
  · intro e he hst
    have hes : (make_hash h k + e) % CAPACITY N ≠ s := by
      intro heq
      exact hmin e he (heq ▸ hs)
    unfold stops at hst
    rw [Function.update_noteq hes] at hst
    exact hmin e he hst

/-- At its stop slot `insert` leaves a slot that holds the key under its hash
with the new value; no other slot changes. -/
theorem insertAt_spec (t : Items K V) (hash : Nat) (k : K) (v : V) (j : Nat)
    (hs : stops t hash k j) :
    ∃ x : wait_free_unordered_map_item K V,
      insertAt t hash k v j = Function.update t j x ∧ x.hash = hash ∧ x.key = k ∧ x.value = v := by
  unfold insertAt
  by_cases h0 : (t j).hash = 0
  · rw [if_pos h0]
    exact ⟨_, rfl, rfl, rfl, rfl⟩
  · rw [if_neg h0]
    rcases hs with hs | hs
    · exact absurd hs h0
    · exact ⟨_, rfl, hs.1, hs.2.symm, rfl⟩

/-- After `insert` the probing for the same key stops at the same slot. -/
theorem findSlot_insertAt (N : Nat) (h : K → Nat) (fuel : Nat) (t : Items K V) (k : K) (v : V)
    (j : Nat) (hf : findSlot N h fuel t k = some j) :
    findSlot N h fuel (insertAt t (make_hash h k) k v j) k = some j := by
  obtain ⟨d, hd, hj, hsj, hmin⟩ := (findSlot_eq_some_iff N h fuel t k j).1 hf
  obtain ⟨x, hx, hxh, hxk, _⟩ := insertAt_spec t (make_hash h k) k v j hsj
  rw [hx]
  refine (findSlot_eq_some_iff N h fuel _ k j).2 ⟨d, hd, hj, ?_, ?_⟩
  · right
    rw [Function.update_same]
    exact ⟨hxh, hxk.symm⟩
  · intro e he hst
    have hes : (make_hash h k + e) % CAPACITY N ≠ j := by
      intro heq
      exact hmin e he (heq ▸ hsj)
    unfold stops at hst
    rw [Function.update_noteq hes] at hst
    exact hmin e he hst

theorem getAt_insertAt (t : Items K V) (hash : Nat) (hh : hash ≠ 0) (k : K) (v : V) (j : Nat)
    (hs : stops t hash k j) : getAt (insertAt t hash k v j) j = some v := by
  obtain ⟨x, hx, hxh, _, hxv⟩ := insertAt_spec t hash k v j hs
  unfold getAt
  rw [hx, Function.update_same, if_neg (by rw [hxh]; exact hh), hxv]

/-- How a completed `insert` acts: it returns at the stop slot `s`, which was
empty and is claimed, or held the key and gets the new value. -/
theorem insert_cases {N : Nat} (hN : 1 ≤ N) {h : K → Nat} {fuel : Nat} {t t2 : Items K V}
    {k : K} {v : V} (hins : insert N h fuel t k v = some t2) :
    ∃ s, findSlot N h fuel t k = some s ∧ s < CAPACITY N ∧
      (((t s).hash = 0 ∧
          t2 = Function.update t s { value := v, hash := make_hash h k, key := k }) ∨
        ((t s).hash = make_hash h k ∧ k = (t s).key ∧
          t2 = Function.update t s { value := v, hash := (t s).hash, key := (t s).key })) := by
  rw [insert_eq] at hins
  cases hf : findSlot N h fuel t k with
  | none => rw [hf] at hins; cases hins
  | some s =>
    rw [hf] at hins
    simp only [Option.map_some', Option.some.injEq] at hins
    obtain ⟨hsc, hs⟩ := findSlot_stops hN hf
    refine ⟨s, rfl, hsc, ?_⟩
    unfold insertAt at hins
    by_cases h0 : (t s).hash = 0
    · rw [if_pos h0] at hins
      exact Or.inl ⟨h0, hins.symm⟩
    · rw [if_neg h0] at hins
      rcases hs with hs | hs
      · exact absurd hs h0
      · exact Or.inr ⟨hs.1, hs.2, hins.symm⟩

/-- How a completed `erase` acts. -/
theorem erase_cases {N : Nat} (hN : 1 ≤ N) {h : K → Nat} {fuel : Nat} {t t2 : Items K V}
    {k : K} {r : Option V} (her : erase N h fuel t k = some (r, t2)) :
    ∃ s, findSlot N h fuel t k = some s ∧ s < CAPACITY N ∧
      (((t s).hash = 0 ∧ r = none ∧ t2 = t) ∨
        ((t s).hash = make_hash h k ∧ k = (t s).key ∧ r = some (t s).value ∧
          t2 = Function.update t s { value := (t s).value, hash := 1, key := (t s).key })) := by
  rw [erase_eq] at her
  cases hf : findSlot N h fuel t k with
  | none => rw [hf] at her; cases her
  | some s =>
    rw [hf] at her
    simp only [Option.map_some', Option.some.injEq] at her
    obtain ⟨hsc, hs⟩ := findSlot_stops hN hf
    refine ⟨s, rfl, hsc, ?_⟩
    unfold eraseAt at her
    by_cases h0 : (t s).hash = 0
    · rw [if_pos h0] at her
      have h1 := congrArg Prod.fst her
      have h2 := congrArg Prod.snd her
      exact Or.inl ⟨h0, h1.symm, h2.symm⟩
    · rw [if_neg h0] at her
      have h1 := congrArg Prod.fst her
      have h2 := congrArg Prod.snd her
      rcases hs with hs | hs
      · exact absurd hs h0
      · exact Or.inr ⟨hs.1, hs.2, h1.symm, h2.symm⟩

/-- How a completed `get` answers. -/
theorem get_cases {N : Nat} (hN : 1 ≤ N) {h : K → Nat} {fuel : Nat} {t : Items K V}
    {k : K} {r : Option V} (hg : get N h fuel t k = some r) :
    ∃ s, findSlot N h fuel t k = some s ∧ s < CAPACITY N ∧
      (((t s).hash = 0 ∧ r = none) ∨
        ((t s).hash = make_hash h k ∧ k = (t s).key ∧ r = some (t s).value)) := by
  rw [get_eq] at hg
  cases hf : findSlot N h fuel t k with
  | none => rw [hf] at hg; cases hg
  | some s =>
    rw [hf] at hg
    simp only [Option.map_some', Option.some.injEq] at hg
    obtain ⟨hsc, hs⟩ := findSlot_stops hN hf
    refine ⟨s, rfl, hsc, ?_⟩
    unfold getAt at hg
    by_cases h0 : (t s).hash = 0
    · rw [if_pos h0] at hg
      exact Or.inl ⟨h0, hg.symm⟩
    · rw [if_neg h0] at hg
      rcases hs with hs | hs
      · exact absurd hs h0
      · exact Or.inr ⟨hs.1, hs.2, hg.symm⟩

/-- Core of the insert-then-get property. -/
theorem get_insert_same {N : Nat} (hN : 1 ≤ N) {h : K → Nat} {fuel : Nat}
    {t t2 : Items K V} {k : K} {v : V} (hins : insert N h fuel t k v = some t2) :
    get N h fuel t2 k = some (some v) ∧
      ∀ m, CAPACITY N ≤ m → get N h m t2 k = some (some v) := by
  rw [insert_eq] at hins
  cases hf : findSlot N h fuel t k with
  | none => rw [hf] at hins; cases hins
  | some j =>
    rw [hf] at hins
    simp only [Option.map_some', Option.some.injEq] at hins
    subst hins
    have hs := (findSlot_stops hN hf).2
    have hf2 := findSlot_insertAt N h fuel t k v j hf
    have hg := getAt_insertAt t (make_hash h k) (make_hash_ne_zero h k) k v j hs
    refine ⟨?_, ?_⟩
    · rw [get_eq, hf2, Option.map_some', hg]
    · intro m hm
      rw [get_eq, findSlot_fuel hN hf2 hm, Option.map_some', hg]

/-- With an empty slot in the table every probing stops. -/
theorem findSlot_of_hasEmpty {N : Nat} (h : K → Nat) {t : Items K V}
    (he : hasEmpty N t) (k : K) : ∃ j, findSlot N h (CAPACITY N) t k = some j := by
  obtain ⟨i, hi, h0⟩ := he
  exact findSlot_isSome h hi (Or.inl h0)

theorem insert_completes {N : Nat} (h : K → Nat) {t : Items K V}
    (he : hasEmpty N t) (k : K) (v : V) :
    ∃ t2, insert N h (CAPACITY N) t k v = some t2 := by
  obtain ⟨j, hj⟩ := findSlot_of_hasEmpty h he k
  exact ⟨_, by rw [insert_eq, hj, Option.map_some']⟩

/-- A key that no slot holds under its hash is reported absent, by `get` and
by `erase`, as soon as the table has an empty slot. -/
theorem not_found_of_no_match {N : Nat} (hN : 1 ≤ N) (h : K → Nat) {t : Items K V}
    (he : hasEmpty N t) (k : K)
    (hno : ∀ i, i < CAPACITY N → ¬ ((t i).hash = make_hash h k ∧ k = (t i).key))
    (m : Nat) (hm : CAPACITY N ≤ m) :
    get N h m t k = some none ∧ erase N h m t k = some (none, t) := by
  obtain ⟨j, hj⟩ := findSlot_of_hasEmpty h he k
  obtain ⟨hjc, hs⟩ := findSlot_stops hN hj
  have h0 : (t j).hash = 0 := by
    rcases hs with hs | hs
    · exact hs
    · exact absurd hs (hno j hjc)
  have hjm := findSlot_fuel hN hj hm
  constructor
  · rw [get_eq, hjm, Option.map_some']
    unfold getAt
    rw [if_pos h0]
  · rw [erase_eq, hjm, Option.map_some']
    unfold eraseAt
    rw [if_pos h0]

end Basic

/-! ## The invariant of reachable tables -/

section Invariant

variable {K V : Type} [DecidableEq K]

theorem inv_empty [Inhabited K] [Inhabited V] (N : Nat) (h : K → Nat) :
    Inv N h (emptyItems : Items K V) := by
  intro j _ h3
  simp [emptyItems] at h3

/-- Rewriting a slot without touching its tag and key does not change where
probing stops. -/
theorem stops_update_same_tag (t : Items K V) (s : Nat) (x : wait_free_unordered_map_item K V)
    (hxh : x.hash = (t s).hash) (hxk : x.key = (t s).key) (hash : Nat) (k : K) (i : Nat) :
    stops (Function.update t s x) hash k i ↔ stops t hash k i := by
  unfold stops
  by_cases his : i = s
  · subst his
    rw [Function.update_same, hxh, hxk]
  · rw [Function.update_noteq his]

/-- Retiring a slot does not change where probing for another key stops. -/
theorem stops_update_retire (t : Items K V) (s : Nat) (x : wait_free_unordered_map_item K V)
    (hxh : x.hash = 1) (hash : Nat) (hh : 3 ≤ hash) (k : K)
    (h0 : (t s).hash ≠ 0) (hnm : ¬ ((t s).hash = hash ∧ k = (t s).key)) (i : Nat) :
    stops (Function.update t s x) hash k i ↔ stops t hash k i := by
  unfold stops
  by_cases his : i = s
  · subst his
    rw [Function.update_same, hxh]
    constructor
    · rintro (h1 | ⟨h1, _⟩) <;> omega
    · rintro (h1 | h1)
      · exact absurd h1 h0
      · exact absurd h1 hnm
  · rw [Function.update_noteq his]

theorem inv_insert {N : Nat} (hN : 1 ≤ N) {h : K → Nat} {fuel : Nat} {t t2 : Items K V}
    {k : K} {v : V} (hinv : Inv N h t) (hins : insert N h fuel t k v = some t2) :
    Inv N h t2 := by
  obtain ⟨s, hf, hsc, hcase⟩ := insert_cases hN hins
  have hfc := findSlot_fuel hN hf (le_refl _)
  rcases hcase with ⟨h0, rfl⟩ | ⟨hh, hk, rfl⟩
  · intro j hj h3
    by_cases hjs : j = s
    · subst hjs
      simp only [Function.update_same]
      refine ⟨trivial, ?_⟩
      have := findSlot_insertAt N h _ t k v j hfc
      unfold insertAt at this
      rwa [if_pos h0] at this
    · rw [Function.update_noteq hjs] at h3 ⊢
      obtain ⟨hh, hfj⟩ := hinv j hj h3
      exact ⟨hh, findSlot_update_of_ne N h _ t _ s _ j hfj (Or.inl h0) hjs⟩
  · intro j hj h3
    have hkey : ∀ i, (Function.update t s
        { value := v, hash := (t s).hash, key := (t s).key } i).key = (t i).key := by
      intro i
      by_cases his : i = s
      · subst his; rw [Function.update_same]
      · rw [Function.update_noteq his]
    have htag : ∀ i, (Function.update t s
        { value := v, hash := (t s).hash, key := (t s).key } i).hash = (t i).hash := by
      intro i
      by_cases his : i = s
      · subst his; rw [Function.update_same]
      · rw [Function.update_noteq his]
    rw [htag, hkey] at *
    obtain ⟨hh, hfj⟩ := hinv j hj h3
    refine ⟨hh, ?_⟩
    rw [findSlot_congr N h (CAPACITY N) t _ (t j).key
      (stops_update_same_tag t s { value := v, hash := (t s).hash, key := (t s).key }
        rfl rfl _ _)]
    exact hfj

theorem inv_erase {N : Nat} (hN : 1 ≤ N) {h : K → Nat} {fuel : Nat} {t t2 : Items K V}
    {k : K} {r : Option V} (hinv : Inv N h t) (her : erase N h fuel t k = some (r, t2)) :
    Inv N h t2 := by
  obtain ⟨s, hf, hsc, hcase⟩ := erase_cases hN her
  have hfc := findSlot_fuel hN hf (le_refl _)
  rcases hcase with ⟨_, _, rfl⟩ | ⟨hh, hk, _, rfl⟩
  · exact hinv
  · intro j hj h3
    have hjs : j ≠ s := by
      intro hjs
      subst hjs
      rw [Function.update_same] at h3
      simp at h3
    rw [Function.update_noteq hjs] at h3 ⊢
    obtain ⟨hhj, hfj⟩ := hinv j hj h3
    refine ⟨hhj, ?_⟩
    have hkne : (t j).key ≠ k := by
      intro hkj
      rw [hkj, hfc] at hfj
      exact hjs (Option.some.inj hfj).symm
    have hs0 : (t s).hash ≠ 0 := by
      rw [hh]; exact make_hash_ne_zero h k
    have hnm : ¬ ((t s).hash = make_hash h (t j).key ∧ (t j).key = (t s).key) := by
      rintro ⟨_, h2⟩
      exact hkne (h2.trans hk.symm)
    rw [findSlot_congr N h (CAPACITY N) t _ (t j).key
      (stops_update_retire t s { value := (t s).value, hash := 1, key := (t s).key }
        rfl _ (make_hash_ge h _) _ hs0 hnm)]
    exact hfj

theorem inv_of_reachable [Inhabited K] [Inhabited V] {N : Nat} (hN : 1 ≤ N) {h : K → Nat}
    {ops : List (Op K V)} {t : Items K V} (hr : ReachableBy N h ops t) : Inv N h t := by
  unfold ReachableBy at hr
  induction hr with
  | nil => exact inv_empty N h
  | insert fuel key value _ hins ih => exact inv_insert hN ih hins
  | erase fuel key r _ her ih => exact inv_erase hN ih her

/-- Under the invariant at most one slot holds a given key under its hash. -/
theorem inv_match_unique {N : Nat} {h : K → Nat} {t : Items K V} (hinv : Inv N h t) {k : K}
    {i j : Nat} (hi : i < CAPACITY N) (hj : j < CAPACITY N)
    (hmi : (t i).hash = make_hash h k ∧ k = (t i).key)
    (hmj : (t j).hash = make_hash h k ∧ k = (t j).key) : i = j := by
  have h3 := make_hash_ge h k
  have h1 := (hinv i hi (by rw [hmi.1]; exact h3)).2
  have h2 := (hinv j hj (by rw [hmj.1]; exact h3)).2
  rw [← hmi.2] at h1
  rw [← hmj.2, h1] at h2
  exact Option.some.inj h2

/-- Under the invariant a slot holding the key under its hash is where the
probing for the key stops. -/
theorem inv_findSlot {N : Nat} (hN : 1 ≤ N) {h : K → Nat} {t : Items K V} (hinv : Inv N h t)
    {k : K} {i : Nat} (hi : i < CAPACITY N)
    (hmi : (t i).hash = make_hash h k ∧ k = (t i).key) {m : Nat} (hm : CAPACITY N ≤ m) :
    findSlot N h m t k = some i := by
  have h1 := (hinv i hi (by rw [hmi.1]; exact make_hash_ge h k)).2
  rw [← hmi.2] at h1
  exact findSlot_fuel hN h1 hm

end Invariant

/-! ## Erase and the frame of the operations -/

section Frame

variable {K V : Type} [DecidableEq K]

/-- No call creates an empty slot: one of the table after `insert` was empty
before. -/
theorem hasEmpty_of_insert {N : Nat} (hN : 1 ≤ N) {h : K → Nat} {fuel : Nat} {t t2 : Items K V}
    {k : K} {v : V} (hins : insert N h fuel t k v = some t2) (he : hasEmpty N t2) :
    hasEmpty N t := by
  obtain ⟨s, _, _, hcase⟩ := insert_cases hN hins
  obtain ⟨e, hec, he0⟩ := he
  have hes : e ≠ s := by
    intro hes
    subst hes
    rcases hcase with ⟨_, rfl⟩ | ⟨hh, _, rfl⟩
    · rw [Function.update_same] at he0
      exact make_hash_ne_zero h k he0
    · rw [Function.update_same] at he0
      exact make_hash_ne_zero h k (hh ▸ he0)
  refine ⟨e, hec, ?_⟩
  rcases hcase with ⟨_, rfl⟩ | ⟨_, _, rfl⟩
  · rwa [Function.update_noteq hes] at he0
  · rwa [Function.update_noteq hes] at he0

/-- Neither does `erase` create or consume an empty slot. -/
theorem hasEmpty_erase {N : Nat} (hN : 1 ≤ N) {h : K → Nat} {fuel : Nat} {t t2 : Items K V}
    {k : K} {r : Option V} (her : erase N h fuel t k = some (r, t2)) :
    hasEmpty N t2 ↔ hasEmpty N t := by
  obtain ⟨s, _, _, hcase⟩ := erase_cases hN her
  rcases hcase with ⟨_, _, rfl⟩ | ⟨hh, _, _, rfl⟩
  · exact Iff.rfl
  · have hs0 : (t s).hash ≠ 0 := by rw [hh]; exact make_hash_ne_zero h k
    constructor
    · rintro ⟨e, hec, he0⟩
      have hes : e ≠ s := by
        intro hes
        subst hes
        rw [Function.update_same] at he0
        simp at he0
      exact ⟨e, hec, by rwa [Function.update_noteq hes] at he0⟩
    · rintro ⟨e, hec, he0⟩
      have hes : e ≠ s := by
        intro hes
        subst hes
        exact hs0 he0
      exact ⟨e, hec, by rwa [Function.update_noteq hes]⟩

/-- Erasing a key that `get` finds: `erase` returns the value, and afterwards
both `get` and `erase` report the key absent. -/
theorem erase_found {N : Nat} (hN : 1 ≤ N) {h : K → Nat} {t : Items K V} (hinv : Inv N h t)
    (he : hasEmpty N t) {fuel : Nat} {k : K} {v : V}
    (hg : get N h fuel t k = some (some v)) :
    ∃ t2, erase N h fuel t k = some (some v, t2) ∧
      (∀ m, CAPACITY N ≤ m → erase N h m t k = some (some v, t2)) ∧
      ∀ m, CAPACITY N ≤ m → get N h m t2 k = some none ∧ erase N h m t2 k = some (none, t2) := by
  obtain ⟨s, hf, hsc, hcase⟩ := get_cases hN hg
  rcases hcase with ⟨_, hr⟩ | ⟨hh, hk, hr⟩
  · cases hr
  · have hv : (t s).value = v := (Option.some.inj hr).symm
    have hs0 : (t s).hash ≠ 0 := by rw [hh]; exact make_hash_ne_zero h k
    have hat : eraseAt t s
        = (some v, Function.update t s { value := (t s).value, hash := 1, key := (t s).key }) := by
      unfold eraseAt
      rw [if_neg hs0, hv]
    have her : erase N h fuel t k = some (some v,
        Function.update t s { value := (t s).value, hash := 1, key := (t s).key }) := by
      rw [erase_eq, hf, Option.map_some', hat]
    refine ⟨_, her, ?_, ?_⟩
    · intro m hm
      rw [erase_eq, findSlot_fuel hN hf hm, Option.map_some', hat]
    · have he2 : hasEmpty N
          (Function.update t s { value := (t s).value, hash := 1, key := (t s).key }) :=
        (hasEmpty_erase hN her).2 he
      intro m hm
      refine not_found_of_no_match hN h he2 k ?_ m hm
      intro i hi hmi
      by_cases his : i = s
      · subst his
        rw [Function.update_same] at hmi
        have := make_hash_ge h k
        have h1 := hmi.1
        simp only at h1
        omega
      · rw [Function.update_noteq his] at hmi
        exact his (inv_match_unique hinv hi hsc hmi ⟨hh, hk⟩)

/-- Frame of `insert` for another key, on tables satisfying the invariant. -/
theorem get_insert_other {N : Nat} (hN : 1 ≤ N) {h : K → Nat} {t t2 : Items K V}
    (hinv : Inv N h t) {fuel : Nat} {k k2 : K} {v : V} (hk : k ≠ k2)
    (hins : insert N h fuel t k v = some t2) (he2 : hasEmpty N t2) (m : Nat)
    (hm : CAPACITY N ≤ m) :
    get N h m t2 k2 = get N h m t k2 ∧ get N h m t k2 ≠ none := by
  have he := hasEmpty_of_insert hN hins he2
  obtain ⟨j, hj⟩ := findSlot_of_hasEmpty h he k2
  obtain ⟨hjc, hsj⟩ := findSlot_stops hN hj
  have hjm := findSlot_fuel hN hj hm
  have hsome : get N h m t k2 ≠ none := by
    rw [get_eq, hjm]; simp
  refine ⟨?_, hsome⟩
  obtain ⟨s, hf, hsc, hcase⟩ := insert_cases hN hins
  rcases hcase with ⟨h0, rfl⟩ | ⟨hh, hks, rfl⟩
  · by_cases hjs : j = s
    · subst hjs
      have hno : ∀ i, i < CAPACITY N →
          ¬ ((Function.update t j { value := v, hash := make_hash h k, key := k } i).hash
              = make_hash h k2 ∧
            k2 = (Function.update t j { value := v, hash := make_hash h k, key := k } i).key) := by
        intro i hi hmi
        by_cases hij : i = j
        · subst hij
          rw [Function.update_same] at hmi
          exact hk hmi.2.symm
        · rw [Function.update_noteq hij] at hmi
          have := inv_findSlot hN hinv hi hmi (le_refl _)
          rw [hj] at this
          exact hij (Option.some.inj this).symm
      rw [(not_found_of_no_match hN h he2 k2 hno m hm).1, get_eq, hjm, Option.map_some']
      unfold getAt
      rw [if_pos h0]
    · have hf2 := findSlot_update_of_ne N h m t k2 s
        { value := v, hash := make_hash h k, key := k } j hjm (Or.inl h0) hjs
      rw [get_eq, get_eq, hf2, hjm, Option.map_some', Option.map_some']
      unfold getAt
      rw [Function.update_noteq hjs]
  · have hjs : j ≠ s := by
      intro hjs
      subst hjs
      rcases hsj with hsj | hsj
      · rw [hh] at hsj
        exact make_hash_ne_zero h k hsj
      · exact hk (hks.trans hsj.2.symm)
    rw [get_eq, get_eq, findSlot_congr N h m t _ k2
      (stops_update_same_tag t s { value := v, hash := (t s).hash, key := (t s).key }
        rfl rfl _ _), hjm, Option.map_some', Option.map_some']
    unfold getAt
    rw [Function.update_noteq hjs]

/-- Frame of `erase` for another key: on every table, with every fuel. -/
theorem get_erase_other {N : Nat} (hN : 1 ≤ N) {h : K → Nat} {t t2 : Items K V}
    {fuel : Nat} {k k2 : K} {r : Option V} (hk : k ≠ k2)
    (her : erase N h fuel t k = some (r, t2)) (m : Nat) :
    get N h m t2 k2 = get N h m t k2 := by
  obtain ⟨s, hf, hsc, hcase⟩ := erase_cases hN her
  rcases hcase with ⟨_, _, rfl⟩ | ⟨hh, hks, _, rfl⟩
  · rfl
  · have hs0 : (t s).hash ≠ 0 := by rw [hh]; exact make_hash_ne_zero h k
    have hnm : ¬ ((t s).hash = make_hash h k2 ∧ k2 = (t s).key) := by
      rintro ⟨_, h2⟩
      exact hk (hks.trans h2.symm)
    have hfs := findSlot_congr N h m t _ k2
      (stops_update_retire t s { value := (t s).value, hash := 1, key := (t s).key }
        rfl _ (make_hash_ge h k2) k2 hs0 hnm)
    rw [get_eq, get_eq, hfs]
    cases hj : findSlot N h m t k2 with
    | none => rfl
    | some j =>
      have hjs : j ≠ s := by
        intro hjs
        subst hjs
        obtain ⟨d, _, _, hst, _⟩ := (findSlot_eq_some_iff N h m t k2 j).1 hj
        rcases hst with hst | hst
        · exact hs0 hst
        · exact hnm hst
      rw [Option.map_some', Option.map_some']
      unfold getAt
      rw [Function.update_noteq hjs]

theorem get_isSome_of_hasEmpty {N : Nat} (hN : 1 ≤ N) (h : K → Nat) {t : Items K V}
    (he : hasEmpty N t) (k : K) (m : Nat) (hm : CAPACITY N ≤ m) : get N h m t k ≠ none := by
  obtain ⟨j, hj⟩ := findSlot_of_hasEmpty h he k
  rw [get_eq, findSlot_fuel hN hj hm]
  simp

theorem hasEmpty_pos {N : Nat} {t : Items K V} (he : hasEmpty N t) : 1 ≤ N := by
  obtain ⟨i, hi, _⟩ := he
  unfold CAPACITY at hi
  omega

end Frame

/-! ## Keys that were never inserted -/

section Avoiding

variable {K V : Type} [DecidableEq K] [Inhabited K] [Inhabited V]

/-- Calls on keys other than `k` never store `k` in a non-empty slot. -/
theorem reachable_avoiding {N : Nat} (hN : 1 ≤ N) {h : K → Nat} {ops : List (Op K V)}
    {t : Items K V} (hr : ReachableBy N h ops t) (k : K) (hops : ∀ op ∈ ops, op.key ≠ k) :
    ∀ i, (t i).hash ≠ 0 → (t i).key ≠ k := by
  unfold ReachableBy at hr
  induction hr with
  | nil =>
    intro i hi
    simp [emptyItems] at hi
  | insert fuel key value _ hins ih =>
    have ih2 := ih (fun op hop => hops op (List.mem_cons_of_mem _ hop))
    have hkey : key ≠ k := hops (Op.insert key value) (List.mem_cons_self _ _)
    obtain ⟨s, _, _, hcase⟩ := insert_cases hN hins
    intro i hi
    rcases hcase with ⟨_, rfl⟩ | ⟨hh, hks, rfl⟩
    · by_cases his : i = s
      · subst his; rw [Function.update_same]; exact hkey
      · rw [Function.update_noteq his] at hi ⊢; exact ih2 i hi
    · by_cases his : i = s
      · subst his; rw [Function.update_same]; exact hks ▸ hkey
      · rw [Function.update_noteq his] at hi ⊢; exact ih2 i hi
  | erase fuel key r _ her ih =>
    have ih2 := ih (fun op hop => hops op (List.mem_cons_of_mem _ hop))
    obtain ⟨s, _, _, hcase⟩ := erase_cases hN her
    intro i hi
    rcases hcase with ⟨_, _, rfl⟩ | ⟨hh, hks, _, rfl⟩
    · exact ih2 i hi
    · by_cases his : i = s
      · subst his
        rw [Function.update_same]
        exact ih2 i (by rw [hh]; exact make_hash_ne_zero h key)
      · rw [Function.update_noteq his] at hi ⊢; exact ih2 i hi

theorem hasEmpty_emptyItems {N : Nat} (hN : 1 ≤ N) : hasEmpty N (emptyItems : Items K V) :=
  ⟨0, capacity_pos hN, rfl⟩

end Avoiding

/-! ## Counting empty slots -/

section Counting

variable {K V : Type} [DecidableEq K]

theorem mem_emptySlots {N : Nat} {t : Items K V} {i : Nat} :
    i ∈ emptySlots N t ↔ i < CAPACITY N ∧ (t i).hash = 0 := by
  unfold emptySlots
  rw [Finset.mem_filter, Finset.mem_range]

theorem hasEmpty_iff_card {N : Nat} {t : Items K V} :
    hasEmpty N t ↔ 0 < (emptySlots N t).card := by
  rw [Finset.card_pos]
  constructor
  · rintro ⟨i, hi, h0⟩
    exact ⟨i, mem_emptySlots.2 ⟨hi, h0⟩⟩
  · rintro ⟨i, hi⟩
    exact ⟨i, (mem_emptySlots.1 hi).1, (mem_emptySlots.1 hi).2⟩

theorem card_emptySlots_emptyItems [Inhabited K] [Inhabited V] (N : Nat) :
    (emptySlots N (emptyItems : Items K V)).card = CAPACITY N := by
  have hall : Finset.filter (fun i => ((emptyItems : Items K V) i).hash = 0)
      (Finset.range (CAPACITY N)) = Finset.range (CAPACITY N) :=
    Finset.filter_true_of_mem (fun _ _ => rfl)
  unfold emptySlots
  rw [hall, Finset.card_range]

/-- A completed `insert` consumes at most one empty slot. -/
theorem card_emptySlots_insert {N : Nat} (hN : 1 ≤ N) {h : K → Nat} {fuel : Nat}
    {t t2 : Items K V} {k : K} {v : V} (hins : insert N h fuel t k v = some t2) :
    (emptySlots N t).card ≤ (emptySlots N t2).card + 1 := by
  obtain ⟨s, _, _, hcase⟩ := insert_cases hN hins
  have hsub : emptySlots N t ⊆ Insert.insert s (emptySlots N t2) := by
    intro i hi
    rw [Finset.mem_insert]
    by_cases his : i = s
    · exact Or.inl his
    · right
      obtain ⟨hic, hi0⟩ := mem_emptySlots.1 hi
      refine mem_emptySlots.2 ⟨hic, ?_⟩
      rcases hcase with ⟨_, rfl⟩ | ⟨_, _, rfl⟩
      · rwa [Function.update_noteq his]
      · rwa [Function.update_noteq his]
  exact (Finset.card_le_card hsub).trans (Finset.card_insert_le _ _)

end Counting

/-! ## What a call does to a single slot -/

section Slots

variable {K V : Type} [DecidableEq K]

/-- A completed `insert` leaves the tag of a slot as it is, or publishes the hash of the
inserted key in a slot that was empty. -/
theorem insert_tag {N : Nat} (hN : 1 ≤ N) {h : K → Nat} {fuel : Nat} {t t2 : Items K V}
    {k : K} {v : V} (hins : insert N h fuel t k v = some t2) (j : Nat) :
    (t2 j).hash = (t j).hash ∨ ((t j).hash = 0 ∧ (t2 j).hash = make_hash h k) := by
  obtain ⟨s, _, _, hcase⟩ := insert_cases hN hins
  by_cases hjs : j = s
  · subst hjs
    rcases hcase with ⟨h0, rfl⟩ | ⟨_, _, rfl⟩
    · right; rw [Function.update_same]; exact ⟨h0, rfl⟩
    · left; rw [Function.update_same]
  · left
    rcases hcase with ⟨_, rfl⟩ | ⟨_, _, rfl⟩
    · rw [Function.update_noteq hjs]
    · rw [Function.update_noteq hjs]

/-- A completed `insert` never changes the key of a non-empty slot. -/
theorem insert_key {N : Nat} (hN : 1 ≤ N) {h : K → Nat} {fuel : Nat} {t t2 : Items K V}
    {k : K} {v : V} (hins : insert N h fuel t k v = some t2) (j : Nat)
    (hj : (t j).hash ≠ 0) : (t2 j).key = (t j).key := by
  obtain ⟨s, _, _, hcase⟩ := insert_cases hN hins
  by_cases hjs : j = s
  · subst hjs
    rcases hcase with ⟨h0, rfl⟩ | ⟨_, _, rfl⟩
    · exact absurd h0 hj
    · rw [Function.update_same]
  · rcases hcase with ⟨_, rfl⟩ | ⟨_, _, rfl⟩
    · rw [Function.update_noteq hjs]
    · rw [Function.update_noteq hjs]

/-- A completed `erase` leaves the tag of a slot as it is, or overwrites the published
hash of the erased key with 1. -/
theorem erase_tag {N : Nat} (hN : 1 ≤ N) {h : K → Nat} {fuel : Nat} {t t2 : Items K V}
    {k : K} {r : Option V} (her : erase N h fuel t k = some (r, t2)) (j : Nat) :
    (t2 j).hash = (t j).hash ∨ ((t j).hash = make_hash h k ∧ (t2 j).hash = 1) := by
  obtain ⟨s, _, _, hcase⟩ := erase_cases hN her
  rcases hcase with ⟨_, _, rfl⟩ | ⟨hh, _, _, rfl⟩
  · exact Or.inl rfl
  · by_cases hjs : j = s
    · subst hjs
      right; rw [Function.update_same]; exact ⟨hh, rfl⟩
    · left; rw [Function.update_noteq hjs]

/-- A completed `erase` never changes a key. -/
theorem erase_key {N : Nat} (hN : 1 ≤ N) {h : K → Nat} {fuel : Nat} {t t2 : Items K V}
    {k : K} {r : Option V} (her : erase N h fuel t k = some (r, t2)) (j : Nat) :
    (t2 j).key = (t j).key := by
  obtain ⟨s, _, _, hcase⟩ := erase_cases hN her
  rcases hcase with ⟨_, _, rfl⟩ | ⟨_, _, _, rfl⟩
  · rfl
  · by_cases hjs : j = s
    · subst hjs; rw [Function.update_same]
    · rw [Function.update_noteq hjs]

/-- Along any sequence of calls a non-empty slot stays non-empty and keeps its
key, and a slot with tag 1 keeps that tag. -/
theorem runs_slot {N : Nat} (hN : 1 ≤ N) {h : K → Nat} {t t2 : Items K V}
    {ops : List (Op K V)} (hr : Runs N h t ops t2) (j : Nat) :
    ((t j).hash ≠ 0 → (t2 j).hash ≠ 0 ∧ (t2 j).key = (t j).key) ∧
      ((t j).hash = 1 → (t2 j).hash = 1) := by
  induction hr with
  | nil => exact ⟨fun hj => ⟨hj, rfl⟩, fun hj => hj⟩
  | insert fuel key value _ hins ih =>
    have h3 := make_hash_ge h key
    constructor
    · intro hj
      obtain ⟨h1, h2⟩ := ih.1 hj
      refine ⟨?_, (insert_key hN hins j h1).trans h2⟩
      rcases insert_tag hN hins j with ht | ht
      · rw [ht]; exact h1
      · rw [ht.2]; omega
    · intro hj
      have h1 := ih.2 hj
      rcases insert_tag hN hins j with ht | ht
      · rw [ht]; exact h1
      · omega
  | erase fuel key r _ her ih =>
    have h3 := make_hash_ge h key
    constructor
    · intro hj
      obtain ⟨h1, h2⟩ := ih.1 hj
      refine ⟨?_, (erase_key hN her j).trans h2⟩
      rcases erase_tag hN her j with ht | ht
      · rw [ht]; exact h1
      · rw [ht.2]; omega
    · intro hj
      have h1 := ih.2 hj
      rcases erase_tag hN her j with ht | ht
      · rw [ht]; exact h1
      · exact ht.2

end Slots

/-! ## Where keys are stored -/

section KeySlots

variable {K V : Type} [DecidableEq K]

/-- A key that was inserted is stored in some non-empty slot ever after. -/
theorem runs_inserted_stored {N : Nat} (hN : 1 ≤ N) {h : K → Nat} {t0 t : Items K V}
    {ops : List (Op K V)} (hr : Runs N h t0 ops t) (k : K) (v : V)
    (hmem : Op.insert k v ∈ ops) :
    ∃ j, j < CAPACITY N ∧ (t j).hash ≠ 0 ∧ (t j).key = k := by
  induction hr with
  | nil => simp at hmem
  | insert fuel key value _ hins ih =>
    rcases List.mem_cons.1 hmem with heq | hmem2
    · have hkk : k = key := by injection heq
      subst hkk
      obtain ⟨s, _, hsc, hcase⟩ := insert_cases hN hins
      refine ⟨s, hsc, ?_⟩
      rcases hcase with ⟨_, rfl⟩ | ⟨hh, hks, rfl⟩
      · rw [Function.update_same]
        exact ⟨make_hash_ne_zero h k, rfl⟩
      · rw [Function.update_same]
        exact ⟨by simp only; rw [hh]; exact make_hash_ne_zero h k, hks.symm⟩
    · obtain ⟨j, hjc, hj0, hjk⟩ := ih hmem2
      obtain ⟨h1, h2⟩ := (runs_slot hN (Runs.insert fuel key value Runs.nil hins) j).1 hj0
      exact ⟨j, hjc, h1, h2.trans hjk⟩
  | erase fuel key r _ her ih =>
    rcases List.mem_cons.1 hmem with heq | hmem2
    · cases heq
    · obtain ⟨j, hjc, hj0, hjk⟩ := ih hmem2
      obtain ⟨h1, h2⟩ := (runs_slot hN (Runs.erase fuel key r Runs.nil her) j).1 hj0
      exact ⟨j, hjc, h1, h2.trans hjk⟩

/-- As long as a key was not erased, every non-empty slot storing it carries a
published hash. -/
theorem reachable_not_erased [Inhabited K] [Inhabited V] {N : Nat} (hN : 1 ≤ N) {h : K → Nat}
    {t : Items K V} {ops : List (Op K V)} (hr : ReachableBy N h ops t) (k : K)
    (hne : Op.erase k ∉ ops) :
    ∀ j, (t j).hash ≠ 0 → (t j).key = k → 3 ≤ (t j).hash := by
  unfold ReachableBy at hr
  induction hr with
  | nil =>
    intro j hj
    simp [emptyItems] at hj
  | insert fuel key value _ hins ih =>
    have ih2 := ih (fun hm => hne (List.mem_cons_of_mem _ hm))
    intro j hj hjk
    rcases insert_tag hN hins j with ht | ht
    · rw [ht] at hj ⊢
      exact ih2 j hj ((insert_key hN hins j hj).symm.trans hjk)
    · rw [ht.2]
      exact make_hash_ge h key
  | @erase ops1 t1 t2 fuel key r _ her ih =>
    have ih2 := ih (fun hm => hne (List.mem_cons_of_mem _ hm))
    have hkey : key ≠ k := by
      intro hkk
      exact hne (hkk ▸ List.mem_cons_self _ _)
    intro j hj hjk
    have hjk2 : (t1 j).key = k := (erase_key hN her j).symm.trans hjk
    rcases erase_tag hN her j with ht | ht
    · rw [ht] at hj ⊢
      exact ih2 j hj hjk2
    · exfalso
      obtain ⟨s, hf, hsc, hcase⟩ := erase_cases hN her
      rcases hcase with ⟨_, _, rfl⟩ | ⟨hh, hks, _, rfl⟩
      · have := ht.2
        rw [ht.1] at this
        have := make_hash_ge h key
        omega
      · by_cases hjs : j = s
        · subst hjs
          exact hkey (hks.trans hjk2)
        · have := ht.2
          rw [Function.update_noteq hjs, ht.1] at this
          have := make_hash_ge h key
          omega

end KeySlots

/-! ## The probe sequence -/

section Probing

variable {K V : Type} [DecidableEq K]

/-- The slots inspected by a loop over a stop predicate are an initial piece
of the sequence `s % c, (s + 1) % c, ...`, and none but the last of them
stops the probing. -/
theorem probes_scan (c : Nat) (P : Nat → Prop) [DecidablePred P] (fuel s : Nat) :
    ∃ n, n ≤ fuel ∧
      probes (fun i => if P i then Step.done i else Step.again ((i + 1) % c)) fuel (s % c)
        = (List.range n).map (fun e => (s + e) % c) ∧
      ∀ e, e + 1 < n → ¬ P ((s + e) % c) := by
  induction fuel generalizing s with
  | zero => exact ⟨0, le_refl _, rfl, fun e he => by omega⟩
  | succ m ih =>
    by_cases hP : P (s % c)
    · refine ⟨1, by omega, ?_, fun e he => by omega⟩
      simp [probes, hP, List.range_succ_eq_map]
    · obtain ⟨n, hn, hl, hmin⟩ := ih (s + 1)
      refine ⟨n + 1, by omega, ?_, ?_⟩
      · simp only [probes, hP, if_false]
        rw [Nat.mod_add_mod, hl, List.range_succ_eq_map, List.map_cons, List.map_map]
        simp only [Nat.add_zero, List.cons.injEq, true_and]
        apply List.map_congr_left
        intro e _
        simp only [Function.comp_apply]
        congr 1
        omega
      · intro e he
        rcases Nat.eq_zero_or_pos e with h0 | hpos
        · subst h0; simpa using hP
        · have := hmin (e - 1) (by omega)
          have he2 : s + 1 + (e - 1) = s + e := by omega
          rwa [he2] at this

/-- With a stop within reach the loop inspects at most `c` slots, no slot
twice. -/
theorem probes_bounded (c : Nat) (P : Nat → Prop) [DecidablePred P] (fuel s i : Nat)
    (hi : i < c) (hPi : P i) :
    (probes (fun i => if P i then Step.done i else Step.again ((i + 1) % c)) fuel
        (s % c)).length ≤ c ∧
      (probes (fun i => if P i then Step.done i else Step.again ((i + 1) % c)) fuel
        (s % c)).Nodup := by
  obtain ⟨n, _, hl, hmin⟩ := probes_scan c P fuel s
  obtain ⟨d, hd, hdi⟩ := exists_offset c s i hi
  have hnc : n ≤ c := by
    by_contra hgt
    exact hmin d (by omega) (hdi ▸ hPi)
  rw [hl]
  constructor
  · rw [List.length_map, List.length_range]
    exact hnc
  · refine List.Nodup.map_on ?_ (List.nodup_range n)
    intro a ha b hb hab
    rw [List.mem_range] at ha hb
    exact offset_injective c s a b (by omega) (by omega) hab

theorem findProbes_bounded {N : Nat} (h : K → Nat) {t : Items K V} (he : hasEmpty N t)
    (k : K) (fuel : Nat) :
    (probes (findBody N t (make_hash h k) k) fuel (make_hash h k % CAPACITY N)).length
        ≤ CAPACITY N ∧
      (probes (findBody N t (make_hash h k) k) fuel (make_hash h k % CAPACITY N)).Nodup := by
  obtain ⟨i, hi, h0⟩ := he
  exact probes_bounded (CAPACITY N) (stops t (make_hash h k) k) fuel (make_hash h k) i hi
    (Or.inl h0)

theorem insertProbes_eq (N : Nat) (h : K → Nat) (fuel : Nat) (t : Items K V) (k : K) (v : V) :
    insertProbes N h fuel t k v
      = probes (findBody N t (make_hash h k) k) fuel (make_hash h k % CAPACITY N) :=
  probes_map _ _ _ (insertBody_eq N t (make_hash h k) k v) _ _

theorem getProbes_eq (N : Nat) (h : K → Nat) (fuel : Nat) (t : Items K V) (k : K) :
    getProbes N h fuel t k
      = probes (findBody N t (make_hash h k) k) fuel (make_hash h k % CAPACITY N) :=
  probes_map _ _ _ (getBody_eq N t (make_hash h k) (make_hash_ne_zero h k) k) _ _

theorem eraseProbes_eq (N : Nat) (h : K → Nat) (fuel : Nat) (t : Items K V) (k : K) :
    eraseProbes N h fuel t k
      = probes (findBody N t (make_hash h k) k) fuel (make_hash h k % CAPACITY N) :=
  probes_map _ _ _ (eraseBody_eq N t (make_hash h k) (make_hash_ne_zero h k) k) _ _

end Probing

/-! ## Tables without an empty slot -/

section Full

variable {K V : Type} [DecidableEq K]

/-- In a table without an empty slot and without a slot holding the key under
its hash the probing never stops. -/
theorem findSlot_none_of_full {N : Nat} (hN : 1 ≤ N) (h : K → Nat) {t : Items K V} {k : K}
    (hfull : ∀ i, i < CAPACITY N → (t i).hash ≠ 0)
    (hno : ∀ i, i < CAPACITY N → ¬ ((t i).hash = make_hash h k ∧ (t i).key = k)) (n : Nat) :
    findSlot N h n t k = none := by
  rw [findSlot_eq_none_iff]
  intro d _ hs
  have hlt : (make_hash h k + d) % CAPACITY N < CAPACITY N := Nat.mod_lt _ (capacity_pos hN)
  rcases hs with hs | hs
  · exact hfull _ hlt hs
  · exact hno _ hlt ⟨hs.1, hs.2.symm⟩

/-- A completed `insert` returns the same table with every larger fuel. -/
theorem insert_fuel {N : Nat} (hN : 1 ≤ N) {h : K → Nat} {fuel : Nat} {t t2 : Items K V}
    {k : K} {v : V} (hins : insert N h fuel t k v = some t2) {m : Nat} (hm : CAPACITY N ≤ m) :
    insert N h m t k v = some t2 := by
  rw [insert_eq] at hins ⊢
  cases hf : findSlot N h fuel t k with
  | none => rw [hf] at hins; cases hins
  | some s =>
    rw [hf] at hins
    rw [findSlot_fuel hN hf hm]
    exact hins

/-- A completed `get` returns the same result with every larger fuel. -/
theorem get_fuel {N : Nat} (hN : 1 ≤ N) {h : K → Nat} {fuel : Nat} {t : Items K V}
    {k : K} {r : Option V} (hg : get N h fuel t k = some r) {m : Nat}
    (hm : CAPACITY N ≤ m) : get N h m t k = some r := by
  rw [get_eq] at hg ⊢
  cases hf : findSlot N h fuel t k with
  | none => rw [hf] at hg; cases hg
  | some s =>
    rw [hf] at hg
    rw [findSlot_fuel hN hf hm]
    exact hg

end Full

/-! ## The inspected slots, by position -/

section ProbeIndex

variable {K V : Type} [DecidableEq K]

end ProbeIndex

/-! ## Counting non-empty slots -/

section Used

variable {K V : Type} [DecidableEq K]

theorem mem_usedSlots {N : Nat} {t : Items K V} {i : Nat} :
    i ∈ usedSlots N t ↔ i < CAPACITY N ∧ (t i).hash ≠ 0 := by
  unfold usedSlots
  rw [Finset.mem_filter, Finset.mem_range]

theorem card_usedSlots_add (N : Nat) (t : Items K V) :
    (usedSlots N t).card + (emptySlots N t).card = CAPACITY N := by
  have hsplit : (Finset.filter (fun i => (t i).hash = 0) (Finset.range (CAPACITY N))).card
      + (Finset.filter (fun i => ¬ (t i).hash = 0) (Finset.range (CAPACITY N))).card
      = (Finset.range (CAPACITY N)).card :=
    Finset.filter_card_add_filter_neg_card_eq_card _
  rw [Finset.card_range] at hsplit
  have hu : (usedSlots N t).card
      = (Finset.filter (fun i => ¬ (t i).hash = 0) (Finset.range (CAPACITY N))).card := rfl
  have he : (emptySlots N t).card
      = (Finset.filter (fun i => (t i).hash = 0) (Finset.range (CAPACITY N))).card := rfl
  omega

/-- Tables with the same tags have the same non-empty slots. -/
theorem usedSlots_congr {N : Nat} {t t2 : Items K V} (htag : ∀ j, (t2 j).hash = (t j).hash) :
    usedSlots N t2 = usedSlots N t := by
  ext i
  rw [mem_usedSlots, mem_usedSlots, htag i]

theorem usedSlots_erase {N : Nat} (hN : 1 ≤ N) {h : K → Nat} {fuel : Nat}
    {t t2 : Items K V} {k : K} {r : Option V} (her : erase N h fuel t k = some (r, t2)) :
    usedSlots N t2 = usedSlots N t := by
  have h3 := make_hash_ge h k
  ext i
  rw [mem_usedSlots, mem_usedSlots]
  rcases erase_tag hN her i with ht | ht
  · rw [ht]
  · rw [ht.1, ht.2]
    constructor
    · rintro ⟨hi, _⟩; exact ⟨hi, by omega⟩
    · rintro ⟨hi, _⟩; exact ⟨hi, by omega⟩

/-- An `insert` of a key that `get` finds keeps every tag. -/
theorem usedSlots_insert_live {N : Nat} (hN : 1 ≤ N) {h : K → Nat} {fuel fuel2 : Nat}
    {t t2 : Items K V} {k : K} {v v0 : V} (hg : get N h fuel2 t k = some (some v0))
    (hins : insert N h fuel t k v = some t2) :
    usedSlots N t2 = usedSlots N t := by
  obtain ⟨s, hfs, _, hcs⟩ := get_cases hN hg
  obtain ⟨s2, hfs2, _, hcase⟩ := insert_cases hN hins
  have e1 := findSlot_fuel hN hfs (le_refl (CAPACITY N))
  have e2 := findSlot_fuel hN hfs2 (le_refl (CAPACITY N))
  rw [e1] at e2
  have hss : s = s2 := Option.some.inj e2
  subst hss
  rcases hcs with ⟨_, hr⟩ | ⟨hh, _, _⟩
  · cases hr
  · rcases hcase with ⟨h0, _⟩ | ⟨_, _, rfl⟩
    · rw [hh] at h0
      exact absurd h0 (make_hash_ne_zero h k)
    · apply usedSlots_congr
      intro j
      by_cases hjs : j = s
      · subst hjs; rw [Function.update_same]
      · rw [Function.update_noteq hjs]

/-- An `insert` of a key that `get` does not find turns one empty slot into a
non-empty one. -/
theorem usedSlots_insert_fresh {N : Nat} (hN : 1 ≤ N) {h : K → Nat} {fuel fuel2 : Nat}
    {t t2 : Items K V} {k : K} {v : V} (hg : get N h fuel2 t k = some none)
    (hins : insert N h fuel t k v = some t2) :
    ∃ s, s ∉ usedSlots N t ∧ usedSlots N t2 = Insert.insert s (usedSlots N t) := by
  obtain ⟨s, hfs, _, hcs⟩ := get_cases hN hg
  obtain ⟨s2, hfs2, hsc, hcase⟩ := insert_cases hN hins
  have e1 := findSlot_fuel hN hfs (le_refl (CAPACITY N))
  have e2 := findSlot_fuel hN hfs2 (le_refl (CAPACITY N))
  rw [e1] at e2
  have hss : s = s2 := Option.some.inj e2
  subst hss
  rcases hcs with ⟨h0, _⟩ | ⟨_, _, hr⟩
  · refine ⟨s, fun hmem => (mem_usedSlots.1 hmem).2 h0, ?_⟩
    rcases hcase with ⟨_, rfl⟩ | ⟨hh, _, _⟩
    · ext i
      rw [Finset.mem_insert, mem_usedSlots, mem_usedSlots]
      by_cases his : i = s
      · subst his
        rw [Function.update_same]
        constructor
        · intro _; exact Or.inl rfl
        · intro _; exact ⟨hsc, make_hash_ne_zero h k⟩
      · rw [Function.update_noteq his]
        constructor
        · intro hi; exact Or.inr hi
        · rintro (hi | hi)
          · exact absurd hi his
          · exact hi
    · rw [hh] at h0
      exact absurd h0 (make_hash_ne_zero h k)
  · cases hr

theorem card_usedSlots_runs {N : Nat} (hN : 1 ≤ N) {h : K → Nat} {t t2 : Items K V}
    {ops : List (Op K V)} (hr : Runs N h t ops t2) :
    (usedSlots N t).card ≤ (usedSlots N t2).card := by
  have hsub : usedSlots N t ⊆ usedSlots N t2 := by
    intro i hi
    obtain ⟨hic, hi0⟩ := mem_usedSlots.1 hi
    exact mem_usedSlots.2 ⟨hic, ((runs_slot hN hr i).1 hi0).1⟩
  exact Finset.card_le_card hsub

theorem card_usedSlots_runsFresh [Inhabited K] [Inhabited V] {N : Nat} (hN : 1 ≤ N)
    {h : K → Nat} {n : Nat} {t : Items K V}
    (hr : RunsFresh N h (emptyItems : Items K V) n t) : (usedSlots N t).card = n := by
  induction hr with
  | nil =>
    have hnone : usedSlots N (emptyItems : Items K V) = ∅ := by
      ext i
      rw [mem_usedSlots]
      simp [emptyItems]
    rw [hnone, Finset.card_empty]
  | fresh fuel fuel2 key value _ hg hins ih =>
    obtain ⟨s, hs, heq⟩ := usedSlots_insert_fresh hN hg hins
    rw [heq, Finset.card_insert_of_not_mem hs, ih]
  | replace fuel fuel2 key value v0 _ hg hins ih =>
    rw [usedSlots_insert_live hN hg hins, ih]
  | erase fuel key r _ her ih =>
    rw [usedSlots_erase hN her, ih]

end Used

/-! ## Sequences of calls -/

section Calls

variable {K V : Type} [DecidableEq K]

/-- A slot that holds a key under its hash still does after any `insert`. -/
theorem match_insert {N : Nat} (hN : 1 ≤ N) {h : K → Nat} {fuel : Nat} {t t2 : Items K V}
    {k : K} {v : V} (hins : insert N h fuel t k v = some t2) {k2 : K} {i : Nat}
    (hm : (t i).hash = make_hash h k2 ∧ k2 = (t i).key) :
    (t2 i).hash = make_hash h k2 ∧ k2 = (t2 i).key := by
  have hi0 : (t i).hash ≠ 0 := by rw [hm.1]; exact make_hash_ne_zero h k2
  refine ⟨?_, hm.2.trans (insert_key hN hins i hi0).symm⟩
  rcases insert_tag hN hins i with ht | ht
  · rw [ht]; exact hm.1
  · exact absurd ht.1 hi0

/-- A slot that holds a key under its hash still does after an `erase` of
another key. -/
theorem match_erase {N : Nat} (hN : 1 ≤ N) {h : K → Nat} {fuel : Nat} {t t2 : Items K V}
    {k : K} {r : Option V} (her : erase N h fuel t k = some (r, t2)) {k2 : K} (hk : k2 ≠ k)
    {i : Nat} (hm : (t i).hash = make_hash h k2 ∧ k2 = (t i).key) :
    (t2 i).hash = make_hash h k2 ∧ k2 = (t2 i).key := by
  obtain ⟨s, _, _, hcase⟩ := erase_cases hN her
  rcases hcase with ⟨_, _, rfl⟩ | ⟨_, hks, _, rfl⟩
  · exact hm
  · have his : i ≠ s := by
      intro his
      subst his
      exact hk (hm.2.trans hks.symm)
    rw [Function.update_noteq his]
    exact hm

/-- After `insert(k, v)` some slot holds `k` under its hash. -/
theorem match_after_insert {N : Nat} (hN : 1 ≤ N) {h : K → Nat} {fuel : Nat}
    {t t2 : Items K V} {k : K} {v : V} (hins : insert N h fuel t k v = some t2) :
    ∃ i, i < CAPACITY N ∧ (t2 i).hash = make_hash h k ∧ k = (t2 i).key := by
  obtain ⟨s, _, hsc, hcase⟩ := insert_cases hN hins
  refine ⟨s, hsc, ?_⟩
  rcases hcase with ⟨_, rfl⟩ | ⟨hh, hks, rfl⟩
  · rw [Function.update_same]; exact ⟨rfl, rfl⟩
  · rw [Function.update_same]; exact ⟨hh, hks⟩

end Calls

/-! ## Concurrent inserts: the invariant of the interleavings -/

section Concurrent

variable {K V : Type} [DecidableEq K]

end Concurrent

section ConcurrentSteps

variable {K V : Type} [DecidableEq K]

end ConcurrentSteps

section ConcurrentRun

variable {K V : Type} [DecidableEq K]

end ConcurrentRun

section ConcurrentEnd

variable {K V : Type} [DecidableEq K]

end ConcurrentEnd

/-! ## How many slots store a key -/

section KeyCount

variable {K V : Type} [DecidableEq K]

theorem mem_keySlots {N : Nat} {t : Items K V} {k : K} {j : Nat} :
    j ∈ keySlots N t k ↔ j < CAPACITY N ∧ (t j).hash ≠ 0 ∧ (t j).key = k := by
  unfold keySlots
  rw [Finset.mem_filter, Finset.mem_range]

/-- Under the invariant a completed `insert` claims an empty slot exactly when
no slot holds the key under its hash. -/
theorem insert_claims_iff {N : Nat} (hN : 1 ≤ N) {h : K → Nat} {fuel : Nat}
    {t t2 : Items K V} (hinv : Inv N h t) {k : K} {v : V}
    (hins : insert N h fuel t k v = some t2) :
    ∃ s, s < CAPACITY N ∧
      (((t s).hash = 0 ∧
          t2 = Function.update t s { value := v, hash := make_hash h k, key := k } ∧
          ¬ ∃ j, j < CAPACITY N ∧ (t j).hash = make_hash h k ∧ k = (t j).key) ∨
        ((t s).hash = make_hash h k ∧ k = (t s).key ∧
          t2 = Function.update t s { value := v, hash := (t s).hash, key := (t s).key })) := by
  obtain ⟨s, hf, hsc, hcase⟩ := insert_cases hN hins
  refine ⟨s, hsc, ?_⟩
  rcases hcase with ⟨h0, ht2⟩ | hover
  · refine Or.inl ⟨h0, ht2, ?_⟩
    rintro ⟨j, hj, hm⟩
    have e1 := findSlot_fuel hN hf (le_refl (CAPACITY N))
    rw [inv_findSlot hN hinv hj hm (le_refl _)] at e1
    have hjs : j = s := Option.some.inj e1
    rw [hjs, h0] at hm
    exact make_hash_ne_zero h k hm.1.symm
  · exact Or.inr hover

/-- A completed `insert(k, ·)` does not change the slots that store another
key. -/
theorem keySlots_insert_other {N : Nat} (hN : 1 ≤ N) {h : K → Nat} {fuel : Nat}
    {t t2 : Items K V} {k : K} {v : V} (hins : insert N h fuel t k v = some t2)
    {k2 : K} (hk : k2 ≠ k) : keySlots N t2 k2 = keySlots N t k2 := by
  obtain ⟨s, _, _, hcase⟩ := insert_cases hN hins
  ext j
  rw [mem_keySlots, mem_keySlots]
  by_cases hjs : j = s
  · subst hjs
    rcases hcase with ⟨h0, rfl⟩ | ⟨_, hks, rfl⟩
    · rw [Function.update_same]
      constructor
      · rintro ⟨_, _, hkk⟩
        exact absurd hkk.symm hk
      · rintro ⟨_, hne, _⟩
        exact absurd h0 hne
    · rw [Function.update_same]
  · rcases hcase with ⟨_, rfl⟩ | ⟨_, _, rfl⟩
    · rw [Function.update_noteq hjs]
    · rw [Function.update_noteq hjs]

/-- A completed `insert(k, ·)` adds one slot storing `k` when no slot holds
`k` under its hash, and none otherwise. -/
theorem keySlots_insert_same {N : Nat} (hN : 1 ≤ N) {h : K → Nat} {fuel : Nat}
    {t t2 : Items K V} (hinv : Inv N h t) {k : K} {v : V}
    (hins : insert N h fuel t k v = some t2) :
    ((∃ j, j < CAPACITY N ∧ (t j).hash = make_hash h k ∧ k = (t j).key) →
      keySlots N t2 k = keySlots N t k) ∧
    ((¬ ∃ j, j < CAPACITY N ∧ (t j).hash = make_hash h k ∧ k = (t j).key) →
      (keySlots N t2 k).card = (keySlots N t k).card + 1) := by
  obtain ⟨s, hsc, hcase⟩ := insert_claims_iff hN hinv hins
  rcases hcase with ⟨h0, rfl, hno⟩ | ⟨hh, hks, rfl⟩
  · refine ⟨fun hex => absurd hex hno, fun _ => ?_⟩
    have hs : s ∉ keySlots N t k := fun hmem => (mem_keySlots.1 hmem).2.1 h0
    have heq : keySlots N
        (Function.update t s { value := v, hash := make_hash h k, key := k }) k
        = Insert.insert s (keySlots N t k) := by
      ext j
      rw [Finset.mem_insert, mem_keySlots, mem_keySlots]
      by_cases hjs : j = s
      · subst hjs
        rw [Function.update_same]
        constructor
        · intro _; exact Or.inl rfl
        · intro _; exact ⟨hsc, make_hash_ne_zero h k, rfl⟩
      · rw [Function.update_noteq hjs]
        constructor
        · intro hj; exact Or.inr hj
        · rintro (hj | hj)
          · exact absurd hj hjs
          · exact hj
    rw [heq, Finset.card_insert_of_not_mem hs]
  · have heq : keySlots N
        (Function.update t s { value := v, hash := (t s).hash, key := (t s).key }) k
        = keySlots N t k := by
      ext j
      rw [mem_keySlots, mem_keySlots]
      by_cases hjs : j = s
      · subst hjs; rw [Function.update_same]
      · rw [Function.update_noteq hjs]
    exact ⟨fun _ => heq, fun hno => absurd ⟨s, hsc, hh, hks⟩ hno⟩

/-- A completed `erase` does not change which slots store which key. -/
theorem keySlots_erase {N : Nat} (hN : 1 ≤ N) {h : K → Nat} {fuel : Nat}
    {t t2 : Items K V} {k : K} {r : Option V} (her : erase N h fuel t k = some (r, t2))
    (k2 : K) : keySlots N t2 k2 = keySlots N t k2 := by
  have h3 := make_hash_ge h k
  ext j
  rw [mem_keySlots, mem_keySlots, erase_key hN her j]
  rcases erase_tag hN her j with ht | ht
  · rw [ht]
  · rw [ht.1, ht.2]
    constructor
    · rintro ⟨hj, _, hk⟩; exact ⟨hj, by omega, hk⟩
    · rintro ⟨hj, _, hk⟩; exact ⟨hj, by omega, hk⟩

/-- After a completed `erase(k)` no slot holds `k` under its hash, on tables
satisfying the invariant. -/
theorem no_match_after_erase {N : Nat} (hN : 1 ≤ N) {h : K → Nat} {fuel : Nat}
    {t t2 : Items K V} (hinv : Inv N h t) {k : K} {r : Option V}
    (her : erase N h fuel t k = some (r, t2)) :
    ¬ ∃ j, j < CAPACITY N ∧ (t2 j).hash = make_hash h k ∧ k = (t2 j).key := by
  have h3 := make_hash_ge h k
  obtain ⟨s, hf, hsc, hcase⟩ := erase_cases hN her
  rintro ⟨j, hj, hm⟩
  rcases hcase with ⟨h0, _, rfl⟩ | ⟨hh, hks, _, rfl⟩
  · have e1 := findSlot_fuel hN hf (le_refl (CAPACITY N))
    rw [inv_findSlot hN hinv hj hm (le_refl _)] at e1
    have hjs : j = s := Option.some.inj e1
    rw [hjs, h0] at hm
    omega
  · by_cases hjs : j = s
    · subst hjs
      rw [Function.update_same] at hm
      have := hm.1
      simp only at this
      omega
    · rw [Function.update_noteq hjs] at hm
      exact hjs (inv_match_unique hinv hj hsc hm ⟨hh, hks⟩)

/-- A slot that holds a key under its hash after a call on another key held
it before the call. -/
theorem match_before_insert {N : Nat} (hN : 1 ≤ N) {h : K → Nat} {fuel : Nat}
    {t t2 : Items K V} {k : K} {v : V} (hins : insert N h fuel t k v = some t2) {k2 : K}
    (hk : k2 ≠ k) {j : Nat} (hm : (t2 j).hash = make_hash h k2 ∧ k2 = (t2 j).key) :
    (t j).hash = make_hash h k2 ∧ k2 = (t j).key := by
  obtain ⟨s, _, _, hcase⟩ := insert_cases hN hins
  by_cases hjs : j = s
  · subst hjs
    rcases hcase with ⟨_, rfl⟩ | ⟨_, hks, rfl⟩
    · rw [Function.update_same] at hm
      exact absurd hm.2 hk
    · rw [Function.update_same] at hm
      exact hm
  · rcases hcase with ⟨_, rfl⟩ | ⟨_, _, rfl⟩
    · rwa [Function.update_noteq hjs] at hm
    · rwa [Function.update_noteq hjs] at hm

theorem match_before_erase {N : Nat} (hN : 1 ≤ N) {h : K → Nat} {fuel : Nat}
    {t t2 : Items K V} {k : K} {r : Option V} (her : erase N h fuel t k = some (r, t2))
    {k2 : K} {j : Nat} (hm : (t2 j).hash = make_hash h k2 ∧ k2 = (t2 j).key) :
    (t j).hash = make_hash h k2 ∧ k2 = (t j).key := by
  have h3 := make_hash_ge h k2
  refine ⟨?_, by rw [← erase_key hN her j]; exact hm.2⟩
  rcases erase_tag hN her j with ht | ht
  · rw [← ht]; exact hm.1
  · have := hm.1
    rw [ht.2] at this
    omega

end KeyCount

/-! ## Histories and the slots of a key -/

section History

variable {K V : Type} [DecidableEq K]

theorem liveIn_true_mem (k : K) (ops : List (Op K V)) (hl : liveIn k ops = true) :
    ∃ v, Op.insert k v ∈ ops := by
  induction ops with
  | nil => simp [liveIn] at hl
  | cons op rest ih =>
    cases op with
    | insert k2 v2 =>
      by_cases hk : k2 = k
      · subst hk
        exact ⟨v2, List.mem_cons_self _ _⟩
      · simp only [liveIn, if_neg hk] at hl
        obtain ⟨v, hv⟩ := ih hl
        exact ⟨v, List.mem_cons_of_mem _ hv⟩
    | erase k2 =>
      by_cases hk : k2 = k
      · simp [liveIn, hk] at hl
      · simp only [liveIn, if_neg hk] at hl
        obtain ⟨v, hv⟩ := ih hl
        exact ⟨v, List.mem_cons_of_mem _ hv⟩

theorem liveIn_of_no_erase (k : K) (ops : List (Op K V)) (hne : Op.erase k ∉ ops) (v : V)
    (hmem : Op.insert k v ∈ ops) : liveIn k ops = true := by
  induction ops with
  | nil => simp at hmem
  | cons op rest ih =>
    have hne2 : Op.erase k ∉ rest := fun hm => hne (List.mem_cons_of_mem _ hm)
    cases op with
    | insert k2 v2 =>
      by_cases hk : k2 = k
      · simp only [liveIn, if_pos hk]
      · simp only [liveIn, if_neg hk]
        rcases List.mem_cons.1 hmem with heq | hm
        · injection heq with h1 _
          exact absurd h1.symm hk
        · exact ih hne2 hm
    | erase k2 =>
      have hk : k2 ≠ k := by
        intro hk
        exact hne (hk ▸ List.mem_cons_self _ _)
      simp only [liveIn, if_neg hk]
      rcases List.mem_cons.1 hmem with heq | hm
      · cases heq
      · exact ih hne2 hm

theorem slotsOf_zero (k : K) (ops : List (Op K V)) (hno : ∀ v, Op.insert k v ∉ ops) :
    slotsOf k ops = 0 := by
  induction ops with
  | nil => rfl
  | cons op rest ih =>
    have ih2 := ih (fun v hm => hno v (List.mem_cons_of_mem _ hm))
    cases op with
    | insert k2 v2 =>
      have hk : k2 ≠ k := by
        intro hk
        exact hno v2 (hk ▸ List.mem_cons_self _ _)
      simp only [slotsOf, ih2]
      rw [if_neg (fun hc => hk hc.1)]
    | erase k2 => simp only [slotsOf, ih2]

theorem slotsOf_pos (k : K) (ops : List (Op K V)) (hmem : ∃ v, Op.insert k v ∈ ops) :
    1 ≤ slotsOf k ops := by
  induction ops with
  | nil =>
    obtain ⟨v, hv⟩ := hmem
    simp at hv
  | cons op rest ih =>
    obtain ⟨v, hv⟩ := hmem
    cases op with
    | insert k2 v2 =>
      simp only [slotsOf]
      rcases List.mem_cons.1 hv with heq | hm
      · injection heq with h1 _
        cases hl : liveIn k rest with
        | false =>
          rw [if_pos ⟨h1.symm, rfl⟩]
          omega
        | true =>
          have := ih (liveIn_true_mem k rest hl)
          omega
      · have := ih ⟨v, hm⟩
        omega
    | erase k2 =>
      simp only [slotsOf]
      rcases List.mem_cons.1 hv with heq | hm
      · cases heq
      · exact ih ⟨v, hm⟩

theorem slotsOf_le_one (k : K) (ops : List (Op K V)) (hnr : noReinsert k ops) :
    slotsOf k ops ≤ 1 := by
  induction ops with
  | nil => simp [slotsOf]
  | cons op rest ih =>
    cases op with
    | insert k2 v2 =>
      have hnr2 : (k2 = k → Op.erase k ∉ rest) ∧ noReinsert k rest := hnr
      have ih2 := ih hnr2.2
      simp only [slotsOf]
      by_cases hc : k2 = k ∧ liveIn k rest = false
      · rw [if_pos hc]
        have hno : ∀ w, Op.insert k w ∉ rest := by
          intro w hw
          have := liveIn_of_no_erase k rest (hnr2.1 hc.1) w hw
          rw [hc.2] at this
          cases this
        rw [slotsOf_zero k rest hno]
      · rw [if_neg hc]
        omega
    | erase k2 =>
      have hnr2 : noReinsert k rest := hnr
      simp only [slotsOf]
      exact ih hnr2

/-- In a reachable table a key is live in the history exactly when some slot
holds it under its hash. -/
theorem reachable_live_iff [Inhabited K] [Inhabited V] {N : Nat} (hN : 1 ≤ N) {h : K → Nat}
    {ops : List (Op K V)} {t : Items K V} (hr : ReachableBy N h ops t) :
    ∀ k, liveIn k ops = true ↔
      ∃ j, j < CAPACITY N ∧ (t j).hash = make_hash h k ∧ k = (t j).key := by
  unfold ReachableBy at hr
  induction hr with
  | nil =>
    intro k
    constructor
    · intro hl
      simp [liveIn] at hl
    · rintro ⟨j, _, hm, _⟩
      exact absurd hm.symm (make_hash_ne_zero h k)
  | @insert ops1 t1 t2 fuel key value hrun hins ih =>
    intro k
    by_cases hk : key = k
    · subst hk
      simp only [liveIn, if_true]
      exact iff_of_true trivial (match_after_insert hN hins)
    · simp only [liveIn, if_neg hk]
      rw [ih k]
      constructor
      · rintro ⟨j, hj, hm⟩
        exact ⟨j, hj, match_insert hN hins hm⟩
      · rintro ⟨j, hj, hm⟩
        exact ⟨j, hj, match_before_insert hN hins (Ne.symm hk) hm⟩
  | @erase ops1 t1 t2 fuel key r hrun her ih =>
    intro k
    have hinv : Inv N h t1 := inv_of_reachable hN hrun
    by_cases hk : key = k
    · subst hk
      simp only [liveIn, if_true]
      constructor
      · intro hl
        cases hl
      · intro hex
        exact absurd hex (no_match_after_erase hN hinv her)
    · simp only [liveIn, if_neg hk]
      rw [ih k]
      constructor
      · rintro ⟨j, hj, hm⟩
        exact ⟨j, hj, match_erase hN her (Ne.symm hk) hm⟩
      · rintro ⟨j, hj, hm⟩
        exact ⟨j, hj, match_before_erase hN her hm⟩

/-- In a reachable table the number of non-empty slots storing a key is the
number of inserts of the key made while it was not live. -/
theorem reachable_keySlots_card [Inhabited K] [Inhabited V] {N : Nat} (hN : 1 ≤ N)
    {h : K → Nat} {ops : List (Op K V)} {t : Items K V} (hr : ReachableBy N h ops t) :
    ∀ k, (keySlots N t k).card = slotsOf k ops := by
  unfold ReachableBy at hr
  induction hr with
  | nil =>
    intro k
    have hnone : keySlots N (emptyItems : Items K V) k = ∅ := by
      ext j
      rw [mem_keySlots]
      simp [emptyItems]
    rw [hnone, Finset.card_empty]
    rfl
  | @insert ops1 t1 t2 fuel key value hrun hins ih =>
    intro k
    have hinv : Inv N h t1 := inv_of_reachable hN hrun
    have hlive := reachable_live_iff hN hrun
    simp only [slotsOf]
    by_cases hk : key = k
    · subst hk
      cases hl : liveIn key ops1 with
      | true =>
        rw [if_neg (by simp), (keySlots_insert_same hN hinv hins).1 ((hlive key).1 hl), ih key]
        rfl
      | false =>
        have hno : ¬ ∃ j, j < CAPACITY N ∧ (t1 j).hash = make_hash h key ∧ key = (t1 j).key := by
          intro hex
          rw [(hlive key).2 hex] at hl
          cases hl
        rw [if_pos ⟨rfl, rfl⟩, (keySlots_insert_same hN hinv hins).2 hno, ih key]
    · rw [if_neg (fun hc => hk hc.1), keySlots_insert_other hN hins (Ne.symm hk), ih k]
      rfl
  | @erase ops1 t1 t2 fuel key r hrun her ih =>
    intro k
    simp only [slotsOf]
    rw [keySlots_erase hN her k, ih k]

end History

/-! ## The contract of the sequential map -/

section Contract

variable {K V : Type} [DecidableEq K]

/-- C1.  For every table state, reachable or not, of a map with
`CAPACITY >= 2`: if `insert(k, v)` completes (with any number `fuel` of loop
iterations), then `get(k)` on the resulting table completes within the same
number of iterations, and within `CAPACITY` iterations, and returns `v`.  The
state is arbitrary, so this covers the claim of an empty slot as well as the
overwrite of a value stored by an earlier `insert` of the same key. -/
theorem insert_then_get (N : Nat) (hcap : 2 ≤ CAPACITY N) (h : K → Nat) (fuel : Nat)
    (t t2 : Items K V) (k : K) (v : V) (hins : insert N h fuel t k v = some t2) :
    get N h fuel t2 k = some (some v) ∧
      ∀ m, CAPACITY N ≤ m → get N h m t2 k = some (some v) :=
  get_insert_same (by unfold CAPACITY at hcap; omega) hins

/-- Instance of C1 on the empty two-slot table: `insert(5, 7)` claims slot 1,
and `get(5)` then returns 7. -/
theorem insert_then_get_witness :
    2 ≤ CAPACITY 1 ∧
    insert 1 (fun k : Nat => k) 2 (emptyItems : Items Nat Nat) 5 7
      = some (Function.update emptyItems 1 { value := 7, hash := 5, key := 5 }) ∧
    get 1 (fun k : Nat => k) 2
      (Function.update (emptyItems : Items Nat Nat) 1 { value := 7, hash := 5, key := 5 }) 5
      = some (some 7) :=
  ⟨by decide, rfl,
    (insert_then_get 1 (by decide) (fun k : Nat => k) 2 emptyItems _ 5 7 rfl).1⟩

variable [Inhabited K] [Inhabited V]

/-- C2.  In every table reachable from the value-initialised one by completed
`insert` and `erase` calls that still has an empty slot: if `get(k)` returns
`v`, then `erase(k)` returns `v`, and on the table it leaves `get(k)` returns
the empty optional and a second `erase(k)` returns the empty optional (and
changes nothing).  All of these calls complete within `CAPACITY` iterations. -/
theorem erase_idempotent (N : Nat) (h : K → Nat) (ops : List (Op K V)) (t : Items K V)
    (hr : ReachableBy N h ops t) (he : hasEmpty N t) (fuel : Nat) (k : K) (v : V)
    (hg : get N h fuel t k = some (some v)) :
    ∃ t2, ∀ m, CAPACITY N ≤ m →
      erase N h m t k = some (some v, t2) ∧ get N h m t2 k = some none ∧
        erase N h m t2 k = some (none, t2) := by
  have hN := hasEmpty_pos he
  obtain ⟨t2, _, h1, h2⟩ := erase_found hN (inv_of_reachable hN hr) he hg
  exact ⟨t2, fun m hm => ⟨h1 m hm, h2 m hm⟩⟩

/-- Instance of C2: after `insert(5, 7)` into the empty two-slot table,
`erase(5)` returns 7, then `get(5)` and `erase(5)` find nothing. -/
theorem erase_idempotent_witness :
    hasEmpty 1 (Function.update (emptyItems : Items Nat Nat) 1
      { value := 7, hash := 5, key := 5 }) ∧
    get 1 (fun k : Nat => k) 2 (Function.update (emptyItems : Items Nat Nat) 1
      { value := 7, hash := 5, key := 5 }) 5 = some (some 7) ∧
    ∃ t2, erase 1 (fun k : Nat => k) 2 (Function.update (emptyItems : Items Nat Nat) 1
        { value := 7, hash := 5, key := 5 }) 5 = some (some 7, t2) ∧
      get 1 (fun k : Nat => k) 2 t2 5 = some none ∧
      erase 1 (fun k : Nat => k) 2 t2 5 = some (none, t2) := by
  refine ⟨⟨0, by decide, rfl⟩, rfl, ?_⟩
  obtain ⟨t2, ht2⟩ := erase_idempotent 1 (fun k : Nat => k) [Op.insert 5 7] _
    (Runs.insert 2 5 7 Runs.nil rfl) ⟨0, by decide, rfl⟩ 2 5 7 rfl
  exact ⟨t2, ht2 2 (by decide)⟩

/-- C3.  In every reachable table and for keys `k ≠ k2` (whatever their
hashes): if `insert(k, v)` or `erase(k)` completes and the table it leaves has
an empty slot, then `get(k2)` completes before and after the call and returns
the same result. -/
theorem other_key_undisturbed (N : Nat) (h : K → Nat) (ops : List (Op K V)) (t : Items K V)
    (hr : ReachableBy N h ops t) (k k2 : K) (hk : k ≠ k2) (t2 : Items K V)
    (he2 : hasEmpty N t2) (fuel : Nat)
    (hop : (∃ v, insert N h fuel t k v = some t2) ∨ (∃ r, erase N h fuel t k = some (r, t2)))
    (m : Nat) (hm : CAPACITY N ≤ m) :
    get N h m t2 k2 = get N h m t k2 ∧ get N h m t k2 ≠ none := by
  have hN := hasEmpty_pos he2
  rcases hop with ⟨v, hins⟩ | ⟨r, her⟩
  · exact get_insert_other hN (inv_of_reachable hN hr) hk hins he2 m hm
  · exact ⟨get_erase_other hN hk her m,
      get_isSome_of_hasEmpty hN h ((hasEmpty_erase hN her).1 he2) k2 m hm⟩

/-- Instance of C3 with two keys of equal hash in a four-slot table: after
`insert(1, 7)`, an `insert(5, 9)` (which probes past the slot of key 1) leaves
`get(1)` at 7. -/
theorem other_key_undisturbed_witness :
    insert 2 (fun _ : Nat => 5) 4
        (Function.update (emptyItems : Items Nat Nat) 1 { value := 7, hash := 5, key := 1 }) 5 9
      = some (Function.update
          (Function.update (emptyItems : Items Nat Nat) 1 { value := 7, hash := 5, key := 1 })
          2 { value := 9, hash := 5, key := 5 }) ∧
    get 2 (fun _ : Nat => 5) 4 (Function.update
          (Function.update (emptyItems : Items Nat Nat) 1 { value := 7, hash := 5, key := 1 })
          2 { value := 9, hash := 5, key := 5 }) 1
      = get 2 (fun _ : Nat => 5) 4
          (Function.update (emptyItems : Items Nat Nat) 1 { value := 7, hash := 5, key := 1 }) 1 ∧
    get 2 (fun _ : Nat => 5) 4
          (Function.update (emptyItems : Items Nat Nat) 1 { value := 7, hash := 5, key := 1 }) 1
      ≠ none :=
  ⟨rfl, other_key_undisturbed 2 (fun _ : Nat => 5) [Op.insert 1 7] _
    (Runs.insert 4 1 7 Runs.nil rfl) 5 1 (by decide) _
    ⟨0, by decide, rfl⟩ 4 (Or.inl ⟨9, rfl⟩) 4 (by decide)⟩

/-- C4.  With `MAX_NR_ITEMS >= 1`: on the freshly constructed table, and on
every table with an empty slot reached from it by completed `insert` and
`erase` calls on keys other than `k`, both `get(k)` and `erase(k)` complete
and return the empty optional; `erase(k)` leaves the table as it is. -/
theorem never_inserted_not_found (N : Nat) (hN : 1 ≤ N) (h : K → Nat) (k : K) (m : Nat)
    (hm : CAPACITY N ≤ m) :
    (get N h m (emptyItems : Items K V) k = some none ∧
      erase N h m (emptyItems : Items K V) k = some (none, emptyItems)) ∧
    ∀ (ops : List (Op K V)) (t : Items K V), ReachableBy N h ops t →
      (∀ op ∈ ops, op.key ≠ k) → hasEmpty N t →
      get N h m t k = some none ∧ erase N h m t k = some (none, t) := by
  have main : ∀ (ops : List (Op K V)) (t : Items K V), ReachableBy N h ops t →
      (∀ op ∈ ops, op.key ≠ k) → hasEmpty N t →
      get N h m t k = some none ∧ erase N h m t k = some (none, t) := by
    intro ops t hr hops he
    refine not_found_of_no_match hN h he k ?_ m hm
    intro i _ hmi
    have hi0 : (t i).hash ≠ 0 := by rw [hmi.1]; exact make_hash_ne_zero h k
    exact reachable_avoiding hN hr k hops i hi0 hmi.2.symm
  exact ⟨main [] emptyItems Runs.nil (by simp) (hasEmpty_emptyItems hN), main⟩

/-- Instance of C4: key 6 on the fresh two-slot table and after
`insert(5, 7)`. -/
theorem never_inserted_not_found_witness :
    (get 1 (fun k : Nat => k) 2 (emptyItems : Items Nat Nat) 6 = some none ∧
      erase 1 (fun k : Nat => k) 2 (emptyItems : Items Nat Nat) 6 = some (none, emptyItems)) ∧
    get 1 (fun k : Nat => k) 2 (Function.update (emptyItems : Items Nat Nat) 1
      { value := 7, hash := 5, key := 5 }) 6 = some none :=
  ⟨(never_inserted_not_found 1 (by decide) (fun k : Nat => k) 6 2 (by decide)).1,
    ((never_inserted_not_found 1 (by decide) (fun k : Nat => k) 6 2 (by decide)).2
      [Op.insert 5 7] _ (Runs.insert 2 5 7 Runs.nil rfl)
      (by decide) ⟨0, by decide, rfl⟩).1⟩

/-- C6.  The scenario of the specification, for every hash function and any
two distinct keys `a`, `b`, on the value-initialised table of a map with
`MAX_NR_ITEMS = 4` (`CAPACITY = 8`, every call run for at most 8 loop
iterations): `insert(a, 1)`, `insert(b, 2)`, then `erase(a)` returns 1,
`get(a)` returns the empty optional, `get(b)` returns 2, and after
`insert(a, 3)`, `get(a)` returns 3. -/
theorem spec_scenario (h : K → Nat) (a b : K) (hab : a ≠ b) :
    ∃ t1 t2 t3 t4 : Items K Nat,
      insert 4 h 8 emptyItems a 1 = some t1 ∧
      insert 4 h 8 t1 b 2 = some t2 ∧
      erase 4 h 8 t2 a = some (some 1, t3) ∧
      get 4 h 8 t3 a = some none ∧
      get 4 h 8 t3 b = some (some 2) ∧
      insert 4 h 8 t3 a 3 = some t4 ∧
      get 4 h 8 t4 a = some (some 3) := by
  have hN : 1 ≤ 4 := by decide
  have hc : CAPACITY 4 = 8 := rfl
  have c0 : (emptySlots 4 (emptyItems : Items K Nat)).card = CAPACITY 4 :=
    card_emptySlots_emptyItems 4
  obtain ⟨t1, hi1⟩ := insert_completes h
    (hasEmpty_emptyItems hN : hasEmpty 4 (emptyItems : Items K Nat)) a 1
  have inv1 := inv_insert hN (inv_empty 4 h) hi1
  have c1 := card_emptySlots_insert hN hi1
  have he1 : hasEmpty 4 t1 := hasEmpty_iff_card.2 (by omega)
  obtain ⟨t2, hi2⟩ := insert_completes h he1 b 2
  have inv2 := inv_insert hN inv1 hi2
  have c2 := card_emptySlots_insert hN hi2
  have he2 : hasEmpty 4 t2 := hasEmpty_iff_card.2 (by omega)
  have ga1 := (get_insert_same hN hi1).2 8 (le_refl _)
  have ga2 : get 4 h 8 t2 a = some (some 1) := by
    rw [(get_insert_other hN inv1 (Ne.symm hab) hi2 he2 8 (le_refl _)).1]
    exact ga1
  have gb2 := (get_insert_same hN hi2).2 8 (le_refl _)
  obtain ⟨t3, he3, _, hafter⟩ := erase_found hN inv2 he2 ga2
  have gb3 : get 4 h 8 t3 b = some (some 2) := by
    rw [get_erase_other hN hab he3 8]
    exact gb2
  have hempty3 : hasEmpty 4 t3 := (hasEmpty_erase hN he3).2 he2
  obtain ⟨t4, hi4⟩ := insert_completes h hempty3 a 3
  exact ⟨t1, t2, t3, t4, hi1, hi2, he3, (hafter 8 (le_refl _)).1, gb3, hi4,
    (get_insert_same hN hi4).2 8 (le_refl _)⟩

/-- Instance of C6 with the keys of the specification, hashed by their
length (so that the two keys collide). -/
theorem spec_scenario_witness :
    "a" ≠ "b" ∧
    ∃ t1 t2 t3 t4 : Items String Nat,
      insert 4 String.length 8 emptyItems "a" 1 = some t1 ∧
      insert 4 String.length 8 t1 "b" 2 = some t2 ∧
      erase 4 String.length 8 t2 "a" = some (some 1, t3) ∧
      get 4 String.length 8 t3 "a" = some none ∧
      get 4 String.length 8 t3 "b" = some (some 2) ∧
      insert 4 String.length 8 t3 "a" 3 = some t4 ∧
      get 4 String.length 8 t4 "a" = some (some 3) :=
  ⟨by decide, spec_scenario String.length "a" "b" (by decide)⟩

/-- C7 (what the code does): wherever `erase(k)` finds the key, the tag it
leaves in the matched slot is 1, the value documented as "busy", and not the
documented tombstone value 2. -/
theorem erase_tag_is_busy (N : Nat) (hN : 1 ≤ N) (h : K → Nat) (fuel : Nat) (t t2 : Items K V)
    (k : K) (v : V) (her : erase N h fuel t k = some (some v, t2)) :
    ∃ s, s < CAPACITY N ∧ findSlot N h fuel t k = some s ∧
      (t s).hash = make_hash h k ∧ k = (t s).key ∧ (t2 s).hash = 1 ∧ (t2 s).hash ≠ 2 := by
  obtain ⟨s, hf, hsc, hcase⟩ := erase_cases hN her
  rcases hcase with ⟨_, hr, _⟩ | ⟨hh, hk, _, rfl⟩
  · cases hr
  · refine ⟨s, hsc, hf, hh, hk, ?_, ?_⟩
    · rw [Function.update_same]
    · rw [Function.update_same]; simp

/-- Instance of C7: in the two-slot table holding key 5 in slot 1, `erase(5)`
returns the value and leaves tag 1 in slot 1. -/
theorem erase_tag_is_busy_witness :
    erase 1 (fun k : Nat => k) 2
        (Function.update (emptyItems : Items Nat Nat) 1 { value := 7, hash := 5, key := 5 }) 5
      = some (some 7, Function.update
          (Function.update (emptyItems : Items Nat Nat) 1 { value := 7, hash := 5, key := 5 })
          1 { value := 7, hash := 1, key := 5 }) ∧
    ∃ s, s < CAPACITY 1 ∧
      findSlot 1 (fun k : Nat => k) 2
        (Function.update (emptyItems : Items Nat Nat) 1 { value := 7, hash := 5, key := 5 }) 5
        = some s ∧
      ((Function.update (emptyItems : Items Nat Nat) 1
          { value := 7, hash := 5, key := 5 }) s).hash = make_hash (fun k : Nat => k) 5 ∧
      5 = ((Function.update (emptyItems : Items Nat Nat) 1
          { value := 7, hash := 5, key := 5 }) s).key ∧
      ((Function.update
          (Function.update (emptyItems : Items Nat Nat) 1 { value := 7, hash := 5, key := 5 })
          1 { value := 7, hash := 1, key := 5 }) s).hash = 1 ∧
      ((Function.update
          (Function.update (emptyItems : Items Nat Nat) 1 { value := 7, hash := 5, key := 5 })
          1 { value := 7, hash := 1, key := 5 }) s).hash ≠ 2 :=
  ⟨rfl, erase_tag_is_busy 1 (by decide) (fun k : Nat => k) 2 _ _ 5 7 rfl⟩

/-- C8.  With `MAX_NR_ITEMS >= 1`, for every table `t` and every slot `j`:
a completed `insert(k, v)` leaves the tag of the slot unchanged or changes it
from 0 (empty) to the hash `make_hash(k) >= 3` of the inserted key; a
completed `erase(k)` leaves it unchanged or changes it from a published hash
(`>= 3`) to the retired marker, which is the value 1 that `erase` stores; and
along every sequence of completed calls starting from `t` a non-empty slot
never becomes empty again, and a retired slot (tag 1) keeps its tag and its
key. -/
theorem tags_move_forward (N : Nat) (hN : 1 ≤ N) (h : K → Nat) (t : Items K V) (j : Nat) :
    (∀ fuel k v t2, insert N h fuel t k v = some t2 →
      (t2 j).hash = (t j).hash ∨
        ((t j).hash = 0 ∧ (t2 j).hash = make_hash h k ∧ 3 ≤ (t2 j).hash)) ∧
    (∀ fuel k r t2, erase N h fuel t k = some (r, t2) →
      (t2 j).hash = (t j).hash ∨ (3 ≤ (t j).hash ∧ (t2 j).hash = 1)) ∧
    (∀ ops t2, Runs N h t ops t2 →
      ((t j).hash ≠ 0 → (t2 j).hash ≠ 0) ∧
      ((t j).hash = 1 → (t2 j).hash = 1 ∧ (t2 j).key = (t j).key)) := by
  refine ⟨?_, ?_, ?_⟩
  · intro fuel k v t2 hins
    rcases insert_tag hN hins j with ht | ht
    · exact Or.inl ht
    · exact Or.inr ⟨ht.1, ht.2, by rw [ht.2]; exact make_hash_ge h k⟩
  · intro fuel k r t2 her
    rcases erase_tag hN her j with ht | ht
    · exact Or.inl ht
    · exact Or.inr ⟨by rw [ht.1]; exact make_hash_ge h k, ht.2⟩
  · intro ops t2 hr
    have hs := runs_slot hN hr j
    refine ⟨fun hj => (hs.1 hj).1, fun hj => ⟨hs.2 hj, (hs.1 (by omega)).2⟩⟩

/-- Instance of C8 at slot 1 of the two-slot table: `insert(5, 7)` publishes
hash 5 in the empty slot, `erase(5)` replaces the hash by 1, and a later
`insert(5, 8)` leaves the retired slot alone (it claims slot 0). -/
theorem tags_move_forward_witness :
    (exampleLive 1).hash = make_hash (fun k : Nat => k) 5 ∧
    (exampleRetired 1).hash = 1 ∧
    (exampleReinserted 1).hash = 1 ∧ (exampleReinserted 1).key = (exampleRetired 1).key := by
  have h1 := (tags_move_forward 1 (by decide) (fun k : Nat => k)
    (emptyItems : Items Nat Nat) 1).1 2 5 7 exampleLive rfl
  have h2 := (tags_move_forward 1 (by decide) (fun k : Nat => k) exampleLive 1).2.1
    2 5 (some 7) exampleRetired rfl
  have h3 := ((tags_move_forward 1 (by decide) (fun k : Nat => k) exampleRetired 1).2.2
    [Op.insert 5 8] exampleReinserted (Runs.insert 2 5 8 Runs.nil rfl)).2 rfl
  refine ⟨?_, ?_, h3⟩
  · rcases h1 with h1 | h1
    · exact absurd h1 (by decide)
    · exact h1.2.1
  · rcases h2 with h2 | h2
    · exact absurd h2 (by decide)
    · exact h2.2

/-- C9 as stated fails: the history `insert(5, 7); erase(5); insert(5, 8)` on
the two-slot table leaves key 5 in both slots, the retired slot 1 and the
newly claimed slot 0, so not exactly one non-empty slot stores the key. -/
theorem one_slot_per_key_counterexample :
    ReachableBy 1 (fun k : Nat => k) [Op.insert 5 8, Op.erase 5, Op.insert 5 7]
      exampleReinserted ∧
    ((exampleReinserted 0).hash ≠ 0 ∧ (exampleReinserted 0).key = 5) ∧
    ((exampleReinserted 1).hash ≠ 0 ∧ (exampleReinserted 1).key = 5) ∧
    ¬ ∃! j, j < CAPACITY 1 ∧ (exampleReinserted j).hash ≠ 0 ∧ (exampleReinserted j).key = 5 := by
  refine ⟨Runs.insert 2 5 8 (Runs.erase 2 5 (some 7) (Runs.insert 2 5 7 Runs.nil rfl) rfl) rfl,
    ⟨by decide, rfl⟩, ⟨by decide, rfl⟩, ?_⟩
  rintro ⟨j, _, huniq⟩
  have h0 := huniq 0 ⟨by decide, by decide, rfl⟩
  have h1 := huniq 1 ⟨by decide, by decide, rfl⟩
  omega

/-- C9, amended.  With `MAX_NR_ITEMS >= 1`, in every table reachable from the
value-initialised one and for every key `k` that some call has inserted: the
number of non-empty slots that store `k` is the number of `insert(k, ·)` calls
made while `k` was not live, which is at least one; at most one slot with a
published hash (`>= 3`) stores `k`; exactly one non-empty slot stores `k` as
long as no `insert(k, ·)` has followed an `erase(k)`, in particular as long as
`k` was never erased; and when `erase(k)` finds `k` and a new `insert(k, v)`
follows, the retired slot keeps `k` (with tag 1) and a different slot, empty
until then, is claimed and stores `k` as well, so that one more slot stores
`k` than before. -/
theorem one_live_slot_per_key (N : Nat) (hN : 1 ≤ N) (h : K → Nat) (ops : List (Op K V))
    (t : Items K V) (hr : ReachableBy N h ops t) (k : K) (v : V)
    (hmem : Op.insert k v ∈ ops) :
    ((keySlots N t k).card = slotsOf k ops ∧ 1 ≤ slotsOf k ops) ∧
    (∃ j, j < CAPACITY N ∧ (t j).hash ≠ 0 ∧ (t j).key = k) ∧
    (∀ i j, i < CAPACITY N → j < CAPACITY N → 3 ≤ (t i).hash → 3 ≤ (t j).hash →
      (t i).key = k → (t j).key = k → i = j) ∧
    (noReinsert k ops → ∃! j, j < CAPACITY N ∧ (t j).hash ≠ 0 ∧ (t j).key = k) ∧
    (Op.erase k ∉ ops → ∃! j, j < CAPACITY N ∧ (t j).hash ≠ 0 ∧ (t j).key = k) ∧
    (∀ fuel fuel2 v1 v2 t1 t2, erase N h fuel t k = some (some v1, t1) →
      insert N h fuel2 t1 k v2 = some t2 →
      ∃ s s2, s < CAPACITY N ∧ s2 < CAPACITY N ∧ s ≠ s2 ∧
        ((t s).hash = make_hash h k ∧ (t s).key = k) ∧
        ((t2 s).hash = 1 ∧ (t2 s).key = k) ∧
        ((t1 s2).hash = 0 ∧ (t2 s2).hash = make_hash h k ∧ (t2 s2).key = k) ∧
        (keySlots N t2 k).card = (keySlots N t k).card + 1) := by
  have hinv := inv_of_reachable hN hr
  have hex := runs_inserted_stored hN hr k v hmem
  have hcard := reachable_keySlots_card hN hr k
  have hpos := slotsOf_pos k ops ⟨v, hmem⟩
  have huniq : ∀ i j, i < CAPACITY N → j < CAPACITY N → 3 ≤ (t i).hash → 3 ≤ (t j).hash →
      (t i).key = k → (t j).key = k → i = j := by
    intro i j hi hj h3i h3j hki hkj
    have hmi := (hinv i hi h3i).1
    have hmj := (hinv j hj h3j).1
    rw [hki] at hmi
    rw [hkj] at hmj
    exact inv_match_unique hinv hi hj ⟨hmi, hki.symm⟩ ⟨hmj, hkj.symm⟩
  refine ⟨⟨hcard, hpos⟩, hex, huniq, ?_, ?_, ?_⟩
  · intro hnr
    have hle := slotsOf_le_one k ops hnr
    have hone : (keySlots N t k).card = 1 := by omega
    obtain ⟨a, ha⟩ := Finset.card_eq_one.1 hone
    have hmem_a : a ∈ keySlots N t k := by rw [ha]; exact Finset.mem_singleton_self a
    refine ⟨a, mem_keySlots.1 hmem_a, ?_⟩
    intro j hj
    have hj2 : j ∈ keySlots N t k := mem_keySlots.2 hj
    rw [ha] at hj2
    exact Finset.mem_singleton.1 hj2
  · intro hne
    have hlive := reachable_not_erased hN hr k hne
    obtain ⟨j, hjc, hj0, hjk⟩ := hex
    refine ⟨j, ⟨hjc, hj0, hjk⟩, ?_⟩
    rintro i ⟨hic, hi0, hik⟩
    exact huniq i j hic hjc (hlive i hi0 hik) (hlive j hj0 hjk) hik hjk
  · intro fuel fuel2 v1 v2 t1 t2 her hins
    have hinv1 := inv_erase hN hinv her
    have hno := no_match_after_erase hN hinv her
    have hks1 := keySlots_erase hN her k
    obtain ⟨s, _, hsc, hcase⟩ := erase_cases hN her
    rcases hcase with ⟨_, hr0, _⟩ | ⟨hh, hks, _, ht1⟩
    · cases hr0
    · obtain ⟨s2, hs2c, hcase2⟩ := insert_claims_iff hN hinv1 hins
      rcases hcase2 with ⟨h0, ht2, _⟩ | ⟨hh2, hks2, _⟩
      · have hs1 : (t1 s).hash = 1 ∧ (t1 s).key = k := by
          rw [ht1, Function.update_same]
          exact ⟨rfl, hks.symm⟩
        have hne : s ≠ s2 := by
          intro hss
          rw [hss, h0] at hs1
          exact absurd hs1.1 (by decide)
        refine ⟨s, s2, hsc, hs2c, hne, ⟨hh, hks.symm⟩, ?_, ⟨h0, ?_, ?_⟩, ?_⟩
        · rw [ht2, Function.update_noteq hne]
          exact hs1
        · rw [ht2, Function.update_same]
        · rw [ht2, Function.update_same]
        · rw [(keySlots_insert_same hN hinv1 hins).2 hno, hks1]
      · exact absurd ⟨s2, hs2c, hh2, hks2⟩ hno

/-- Instance of amended C9 on the two-slot table: after
`insert(5, 7); erase(5); insert(5, 8)` two non-empty slots store key 5; after
`insert(5, 7); erase(5)` exactly one does; and the `erase(5)` and
`insert(5, 8)` that lead from `exampleLive` to `exampleReinserted` leave key 5
in the retired slot and in a newly claimed one. -/
theorem one_live_slot_per_key_witness :
    (keySlots 1 exampleReinserted 5).card = 2 ∧
    (∃! j, j < CAPACITY 1 ∧ (exampleRetired j).hash ≠ 0 ∧ (exampleRetired j).key = 5) ∧
    ∃ s s2, s < CAPACITY 1 ∧ s2 < CAPACITY 1 ∧ s ≠ s2 ∧
      ((exampleReinserted s).hash = 1 ∧ (exampleReinserted s).key = 5) ∧
      ((exampleRetired s2).hash = 0 ∧
        (exampleReinserted s2).hash = make_hash (fun k : Nat => k) 5 ∧
        (exampleReinserted s2).key = 5) := by
  have hr1 : ReachableBy 1 (fun k : Nat => k) [Op.insert 5 7] exampleLive :=
    Runs.insert 2 5 7 Runs.nil rfl
  have hr2 : ReachableBy 1 (fun k : Nat => k) [Op.erase 5, Op.insert 5 7] exampleRetired :=
    Runs.erase 2 5 (some 7) hr1 rfl
  have hr3 : ReachableBy 1 (fun k : Nat => k) [Op.insert 5 8, Op.erase 5, Op.insert 5 7]
      exampleReinserted := Runs.insert 2 5 8 hr2 rfl
  have he : erase 1 (fun k : Nat => k) 2 exampleLive 5 = some (some 7, exampleRetired) := rfl
  have hi : insert 1 (fun k : Nat => k) 2 exampleRetired 5 8 = some exampleReinserted := rfl
  have hcount : slotsOf (5 : Nat) [Op.insert 5 (8 : Nat), Op.erase 5, Op.insert 5 7] = 2 := rfl
  have hnr : noReinsert (5 : Nat) [Op.erase 5, Op.insert 5 (7 : Nat)] :=
    ⟨fun _ hm => by simp at hm, trivial⟩
  have w3 := one_live_slot_per_key 1 (by decide) (fun k : Nat => k) _ exampleReinserted hr3
    5 8 (by simp)
  have w2 := one_live_slot_per_key 1 (by decide) (fun k : Nat => k) _ exampleRetired hr2
    5 7 (by simp)
  have w1 := one_live_slot_per_key 1 (by decide) (fun k : Nat => k) _ exampleLive hr1
    5 7 (by simp)
  obtain ⟨s, s2, h1, h2, h3, _, h5, h6, _⟩ := w1.2.2.2.2.2 2 2 7 8 exampleRetired
    exampleReinserted he hi
  exact ⟨w3.1.1.trans hcount, w2.2.2.2.1 hnr, s, s2, h1, h2, h3, h5, h6⟩

/-- C10.  For every table of a map with `MAX_NR_ITEMS >= 1` that has an empty
slot, and every key: `insert`, `get` and `erase` return within `CAPACITY`
loop iterations, and however long the loops are allowed to run they inspect
at most `CAPACITY` slots and no slot twice. -/
theorem bounded_probing (N : Nat) (hN : 1 ≤ N) (h : K → Nat) (t : Items K V)
    (he : hasEmpty N t) (k : K) (v : V) :
    1 ≤ CAPACITY N ∧
    (insert N h (CAPACITY N) t k v ≠ none ∧
      ∀ fuel, (insertProbes N h fuel t k v).length ≤ CAPACITY N ∧
        (insertProbes N h fuel t k v).Nodup) ∧
    (get N h (CAPACITY N) t k ≠ none ∧
      ∀ fuel, (getProbes N h fuel t k).length ≤ CAPACITY N ∧
        (getProbes N h fuel t k).Nodup) ∧
    (erase N h (CAPACITY N) t k ≠ none ∧
      ∀ fuel, (eraseProbes N h fuel t k).length ≤ CAPACITY N ∧
        (eraseProbes N h fuel t k).Nodup) := by
  obtain ⟨j, hj⟩ := findSlot_of_hasEmpty h he k
  refine ⟨capacity_pos hN, ⟨?_, ?_⟩, ⟨?_, ?_⟩, ⟨?_, ?_⟩⟩
  · rw [insert_eq, hj]; simp
  · intro fuel
    rw [insertProbes_eq]
    exact findProbes_bounded h he k fuel
  · rw [get_eq, hj]; simp
  · intro fuel
    rw [getProbes_eq]
    exact findProbes_bounded h he k fuel
  · rw [erase_eq, hj]; simp
  · intro fuel
    rw [eraseProbes_eq]
    exact findProbes_bounded h he k fuel

/-- Instance of C10: on the two-slot table whose slot 1 is retired, `insert`
of key 5 inspects slot 1, then slot 0, and returns; with fuel for five
iterations it still inspects just these two slots. -/
theorem bounded_probing_witness :
    hasEmpty 1 exampleRetired ∧
    insertProbes 1 (fun k : Nat => k) 5 exampleRetired 5 8 = [1, 0] ∧
    insert 1 (fun k : Nat => k) (CAPACITY 1) exampleRetired 5 8 ≠ none ∧
    (insertProbes 1 (fun k : Nat => k) 5 exampleRetired 5 8).length ≤ CAPACITY 1 ∧
    (insertProbes 1 (fun k : Nat => k) 5 exampleRetired 5 8).Nodup :=
  ⟨⟨0, by decide, rfl⟩, rfl,
    (bounded_probing 1 (by decide) (fun k : Nat => k) exampleRetired
      ⟨0, by decide, rfl⟩ 5 8).2.1.1,
    ((bounded_probing 1 (by decide) (fun k : Nat => k) exampleRetired
      ⟨0, by decide, rfl⟩ 5 8).2.1.2 5)⟩

end Contract

/-! ## Behaviour of the loops and invariants of the table -/

section Behaviour

variable {K V : Type} [DecidableEq K]

/-- C11.  With `MAX_NR_ITEMS >= 1`, on every table in which no slot is empty
and no slot holds `k` under `make_hash(k)`: for every bound `n` on the number
of loop iterations, `insert(k, v)`, `get(k)` and `erase(k)` are still probing
after `n` slot visits.  The loops have no other exit: a run is either a
`return` or still running, there is no error outcome. -/
theorem full_table_never_answers (N : Nat) (hN : 1 ≤ N) (h : K → Nat) (t : Items K V) (k : K)
    (hfull : ∀ i, i < CAPACITY N → (t i).hash ≠ 0)
    (hno : ∀ i, i < CAPACITY N → ¬ ((t i).hash = make_hash h k ∧ (t i).key = k))
    (v : V) (n : Nat) :
    insert N h n t k v = none ∧ get N h n t k = none ∧ erase N h n t k = none := by
  have hf := findSlot_none_of_full hN h hfull hno n
  refine ⟨?_, ?_, ?_⟩
  · rw [insert_eq, hf]; rfl
  · rw [get_eq, hf]; rfl
  · rw [erase_eq, hf]; rfl

/-- Instance of C11: on the two-slot table whose slots are both retired, the
three operations on key 5 have not returned after 1000 slot visits. -/
theorem full_table_never_answers_witness :
    (∀ i, i < CAPACITY 1 → (exampleFull i).hash ≠ 0) ∧
    insert 1 (fun k : Nat => k) 1000 exampleFull 5 9 = none ∧
    get 1 (fun k : Nat => k) 1000 exampleFull 5 = none ∧
    erase 1 (fun k : Nat => k) 1000 exampleFull 5 = none :=
  ⟨by decide, full_table_never_answers 1 (by decide) (fun k : Nat => k) exampleFull 5
    (by decide) (by decide) 9 1000⟩

/-- C13.  For every key with natural hash `x = std_hash key`: `make_hash`
returns `x` when `x >= 3` and `x + 3` when `x` is 0, 1 or 2 (so 0, 1, 2 become
3, 4, 5); the result is never one of the reserved tags 0, 1, 2; and for a
64-bit `size_t` the sum `x + 3` of the second branch does not wrap, the result
is again a `size_t`. -/
theorem make_hash_not_reserved (std_hash : K → Nat) (key : K) :
    (3 ≤ std_hash key → make_hash std_hash key = std_hash key) ∧
    (std_hash key < 3 →
      make_hash std_hash key = std_hash key + 3 ∧
      (std_hash key + 3) % 2 ^ 64 = std_hash key + 3) ∧
    (std_hash key = 0 → make_hash std_hash key = 3) ∧
    (std_hash key = 1 → make_hash std_hash key = 4) ∧
    (std_hash key = 2 → make_hash std_hash key = 5) ∧
    make_hash std_hash key ≠ 0 ∧ make_hash std_hash key ≠ 1 ∧ make_hash std_hash key ≠ 2 ∧
    (std_hash key < 2 ^ 64 → make_hash std_hash key < 2 ^ 64) := by
  have h3 := make_hash_ge std_hash key
  have hdef : make_hash std_hash key
      = if std_hash key ≥ 3 then std_hash key else std_hash key + 3 := rfl
  refine ⟨?_, ?_, ?_, ?_, ?_, by omega, by omega, by omega, ?_⟩
  · intro hx; rw [hdef, if_pos hx]
  · intro hx
    rw [hdef, if_neg (by omega)]
    exact ⟨rfl, Nat.mod_eq_of_lt (by omega)⟩
  · intro hx; rw [hdef, if_neg (by omega), hx]
  · intro hx; rw [hdef, if_neg (by omega), hx]
  · intro hx; rw [hdef, if_neg (by omega), hx]
  · intro hx
    rw [hdef]
    split <;> omega

/-- C15.  With `MAX_NR_ITEMS >= 1`, on every table (reachable or not) on which
`get(k)` returns a value: `insert(k, v2)` completes and the table it leaves
differs from the old one only in the value field of the slot `s` that holds
`k` under its hash, which now is `v2`; every tag, every key and the value of
every other slot are as before, and the set of empty slots is the same. -/
theorem replace_in_place (N : Nat) (hN : 1 ≤ N) (h : K → Nat) (t : Items K V) (fuel : Nat)
    (k : K) (v0 v2 : V) (hlive : get N h fuel t k = some (some v0)) :
    ∃ s t2, s < CAPACITY N ∧ insert N h fuel t k v2 = some t2 ∧
      (∀ m, CAPACITY N ≤ m → insert N h m t k v2 = some t2) ∧
      ((t s).hash = make_hash h k ∧ (t s).key = k ∧ (t s).value = v0) ∧
      t2 = Function.update t s { value := v2, hash := (t s).hash, key := (t s).key } ∧
      (∀ j, (t2 j).hash = (t j).hash ∧ (t2 j).key = (t j).key) ∧
      (∀ j, j ≠ s → t2 j = t j) ∧
      (t2 s).value = v2 ∧
      emptySlots N t2 = emptySlots N t := by
  obtain ⟨s, hf, hsc, hcase⟩ := get_cases hN hlive
  rcases hcase with ⟨_, hr⟩ | ⟨hh, hk, hr⟩
  · cases hr
  · have hs0 : (t s).hash ≠ 0 := by rw [hh]; exact make_hash_ne_zero h k
    have hat : insertAt t (make_hash h k) k v2 s
        = Function.update t s { value := v2, hash := (t s).hash, key := (t s).key } := by
      unfold insertAt
      rw [if_neg hs0]
    have hins : insert N h fuel t k v2
        = some (Function.update t s { value := v2, hash := (t s).hash, key := (t s).key }) := by
      rw [insert_eq, hf, Option.map_some', hat]
    have htk : ∀ j, (Function.update t s
          { value := v2, hash := (t s).hash, key := (t s).key } j).hash = (t j).hash ∧
        (Function.update t s
          { value := v2, hash := (t s).hash, key := (t s).key } j).key = (t j).key := by
      intro j
      by_cases hjs : j = s
      · subst hjs; rw [Function.update_same]; exact ⟨rfl, rfl⟩
      · rw [Function.update_noteq hjs]; exact ⟨rfl, rfl⟩
    refine ⟨s, _, hsc, hins, fun m hm => insert_fuel hN hins hm,
      ⟨hh, hk.symm, (Option.some.inj hr).symm⟩, rfl, htk, ?_, ?_, ?_⟩
    · intro j hjs
      rw [Function.update_noteq hjs]
    · rw [Function.update_same]
    · ext i
      rw [mem_emptySlots, mem_emptySlots, (htk i).1]

/-- Instance of C15: in the two-slot table holding key 5 with value 7 in slot
1, `insert(5, 9)` rewrites the value of slot 1 and nothing else. -/
theorem replace_in_place_witness :
    get 1 (fun k : Nat => k) 2 exampleLive 5 = some (some 7) ∧
    insert 1 (fun k : Nat => k) 2 exampleLive 5 9
      = some (Function.update exampleLive 1 { value := 9, hash := 5, key := 5 }) ∧
    ∃ s t2, s < CAPACITY 1 ∧ insert 1 (fun k : Nat => k) 2 exampleLive 5 9 = some t2 ∧
      (∀ j, (t2 j).hash = (exampleLive j).hash ∧ (t2 j).key = (exampleLive j).key) ∧
      (∀ j, j ≠ s → t2 j = exampleLive j) ∧ (t2 s).value = 9 ∧
      emptySlots 1 t2 = emptySlots 1 exampleLive := by
  have hg : get 1 (fun k : Nat => k) 2 exampleLive 5 = some (some 7) := rfl
  refine ⟨hg, rfl, ?_⟩
  obtain ⟨s, t2, h1, h2, _, _, _, h6, h7, h8, h9⟩ :=
    replace_in_place 1 (by decide) (fun k : Nat => k) exampleLive 2 5 7 9 hg
  exact ⟨s, t2, h1, h2, h6, h7, h8, h9⟩

/-- C16.  With `MAX_NR_ITEMS >= 1`, for every table and key on which
`erase(k)` completes: when it returns the empty optional the table is
unchanged; when it returns a value, that value is the one stored in the slot
`s` holding `k` under `make_hash(k)`, and the new table is the old one with
the tag of slot `s` overwritten (by 1), key and value of slot `s` retained and
every other slot unchanged.  The embedding of `get`, a `const` member that
only loads, has no table among its results. -/
theorem erase_touches_one_tag (N : Nat) (hN : 1 ≤ N) (h : K → Nat) (t t2 : Items K V)
    (fuel : Nat) (k : K) (r : Option V) (her : erase N h fuel t k = some (r, t2)) :
    (r = none → t2 = t) ∧
    (∀ v, r = some v → ∃ s, s < CAPACITY N ∧
      ((t s).hash = make_hash h k ∧ (t s).key = k ∧ (t s).value = v) ∧
      t2 = Function.update t s { value := (t s).value, hash := 1, key := (t s).key } ∧
      (t2 s).key = (t s).key ∧ (t2 s).value = (t s).value ∧
      ∀ j, j ≠ s → t2 j = t j) ∧
    (∀ j, (t2 j).key = (t j).key ∧ (t2 j).value = (t j).value) ∧
    (∀ i j, (t2 i).hash ≠ (t i).hash → (t2 j).hash ≠ (t j).hash → i = j) := by
  obtain ⟨s, hf, hsc, hcase⟩ := erase_cases hN her
  rcases hcase with ⟨_, hr, rfl⟩ | ⟨hh, hk, hr, rfl⟩
  · refine ⟨fun _ => rfl, ?_, fun j => ⟨rfl, rfl⟩, fun i _ hi => absurd rfl hi⟩
    intro v hv
    rw [hr] at hv
    cases hv
  · have hother : ∀ j, j ≠ s → Function.update t s
        { value := (t s).value, hash := 1, key := (t s).key } j = t j :=
      fun j hjs => Function.update_noteq hjs _ _
    refine ⟨?_, ?_, ?_, ?_⟩
    · intro hn
      rw [hr] at hn
      cases hn
    · intro v hv
      rw [hr] at hv
      refine ⟨s, hsc, ⟨hh, hk.symm, Option.some.inj hv⟩, rfl, ?_, ?_, hother⟩
      · rw [Function.update_same]
      · rw [Function.update_same]
    · intro j
      by_cases hjs : j = s
      · subst hjs; rw [Function.update_same]; exact ⟨rfl, rfl⟩
      · rw [hother j hjs]; exact ⟨rfl, rfl⟩
    · intro i j hi hj
      have his : i = s := by
        by_contra hne
        exact hi (by rw [hother i hne])
      have hjs : j = s := by
        by_contra hne
        exact hj (by rw [hother j hne])
      rw [his, hjs]

/-- Instance of C16: `erase(5)` on the two-slot table holding key 5 in slot 1
returns 7 and only overwrites the tag of slot 1; `erase(6)` returns the empty
optional and leaves the table as it is. -/
theorem erase_touches_one_tag_witness :
    erase 1 (fun k : Nat => k) 2 exampleLive 5 = some (some 7, exampleRetired) ∧
    (∀ j, (exampleRetired j).key = (exampleLive j).key ∧
      (exampleRetired j).value = (exampleLive j).value) ∧
    erase 1 (fun k : Nat => k) 2 exampleLive 6 = some (none, exampleLive) := by
  have he : erase 1 (fun k : Nat => k) 2 exampleLive 5 = some (some 7, exampleRetired) := rfl
  have hr : erase 1 (fun k : Nat => k) 2 exampleLive 6 = some (none, exampleLive) := rfl
  exact ⟨he,
    (erase_touches_one_tag 1 (by decide) (fun k : Nat => k) exampleLive exampleRetired
      2 5 (some 7) he).2.2.1, hr⟩

/-- C18.  In every table reachable from the value-initialised one, for every
slot `j` below `CAPACITY` whose tag is a published hash (`>= 3`), with stored
key `k`: the tag equals `make_hash(k)`; slot `j` lies on the probe sequence of
`k` at an offset `d < CAPACITY`, and none of the slots at offsets `0..d` of
that sequence is empty; so `get(k)` never returns the empty optional, and with
fuel for `CAPACITY` iterations it returns the value stored in slot `j`. -/
theorem empty_proves_absence [Inhabited K] [Inhabited V] (N : Nat) (h : K → Nat) (ops : List (Op K V)) (t : Items K V)
    (hr : ReachableBy N h ops t) (j : Nat) (hj : j < CAPACITY N) (h3 : 3 ≤ (t j).hash) :
    (t j).hash = make_hash h (t j).key ∧
    (∃ d, d < CAPACITY N ∧ j = (make_hash h (t j).key + d) % CAPACITY N ∧
      ∀ e, e ≤ d → (t ((make_hash h (t j).key + e) % CAPACITY N)).hash ≠ 0) ∧
    (∀ fuel, get N h fuel t (t j).key ≠ some none) ∧
    (∀ m, CAPACITY N ≤ m → get N h m t (t j).key = some (some (t j).value)) := by
  have hN : 1 ≤ N := by unfold CAPACITY at hj; omega
  obtain ⟨hh, hfj⟩ := inv_of_reachable hN hr j hj h3
  have hj0 : (t j).hash ≠ 0 := by omega
  have hat : getAt t j = some (t j).value := by
    unfold getAt
    rw [if_neg hj0]
  obtain ⟨d, hd, hjd, _, hmin⟩ := (findSlot_eq_some_iff N h _ t _ j).1 hfj
  refine ⟨hh, ⟨d, hd, hjd, ?_⟩, ?_, ?_⟩
  · intro e he
    rcases Nat.lt_or_ge e d with hlt | hge
    · intro h0
      exact hmin e hlt (Or.inl h0)
    · have hed : e = d := by omega
      rw [hed, ← hjd]
      exact hj0
  · intro fuel hg
    rw [get_eq] at hg
    cases hf : findSlot N h fuel t (t j).key with
    | none => rw [hf] at hg; cases hg
    | some s =>
      have hs := findSlot_fuel hN hf (le_refl (CAPACITY N))
      rw [hfj] at hs
      have hsj : j = s := Option.some.inj hs
      subst hsj
      rw [hf, Option.map_some', hat] at hg
      cases hg
  · intro m hm
    rw [get_eq, findSlot_fuel hN hfj hm, Option.map_some', hat]

/-- Instance of C18 at slot 0 of the two-slot table after
`insert(5, 7); erase(5); insert(5, 8)`: the slot holds key 5 under hash 5, it
is reached from slot 1 (offset 1), and `get(5)` returns 8. -/
theorem empty_proves_absence_witness :
    (exampleReinserted 0).hash = make_hash (fun k : Nat => k) (exampleReinserted 0).key ∧
    get 1 (fun k : Nat => k) 2 exampleReinserted 5 = some (some 8) := by
  have hr : ReachableBy 1 (fun k : Nat => k) [Op.insert 5 8, Op.erase 5, Op.insert 5 7]
      exampleReinserted :=
    Runs.insert 2 5 8 (Runs.erase 2 5 (some 7) (Runs.insert 2 5 7 Runs.nil rfl) rfl) rfl
  have hw := empty_proves_absence 1 (fun k : Nat => k) _ exampleReinserted hr 0
    (by decide) (by decide)
  exact ⟨hw.1, hw.2.2.2 2 (by decide)⟩

/-- C19.  In every table reachable from the value-initialised one by
single-threaded `insert` and `erase` calls, two distinct slots below
`CAPACITY` whose tags are published hashes (`>= 3`) store different keys. -/
theorem no_duplicate_live_keys [Inhabited K] [Inhabited V] (N : Nat) (h : K → Nat) (ops : List (Op K V)) (t : Items K V)
    (hr : ReachableBy N h ops t) (i j : Nat) (hi : i < CAPACITY N) (hj : j < CAPACITY N)
    (hij : i ≠ j) (h3i : 3 ≤ (t i).hash) (h3j : 3 ≤ (t j).hash) :
    (t i).key ≠ (t j).key := by
  have hN : 1 ≤ N := by unfold CAPACITY at hj; omega
  have hinv := inv_of_reachable hN hr
  intro hk
  have hmi := (hinv i hi h3i).1
  have hmj := (hinv j hj h3j).1
  rw [hk] at hmi
  exact hij (inv_match_unique hinv hi hj ⟨hmi, hk.symm⟩ ⟨hmj, rfl⟩)

/-- Instance of C19: after `insert(5, 7); insert(4, 9)` the two slots of the
two-slot table are both published and store the keys 4 and 5. -/
theorem no_duplicate_live_keys_witness :
    (3 ≤ (exampleTwoKeys 0).hash ∧ 3 ≤ (exampleTwoKeys 1).hash) ∧
    (exampleTwoKeys 0).key ≠ (exampleTwoKeys 1).key := by
  have hr : ReachableBy 1 (fun k : Nat => k) [Op.insert 4 9, Op.insert 5 7] exampleTwoKeys :=
    Runs.insert 2 4 9 (Runs.insert 2 5 7 Runs.nil rfl) rfl
  exact ⟨⟨by decide, by decide⟩,
    no_duplicate_live_keys 1 (fun k : Nat => k) _ exampleTwoKeys hr 0 1
      (by decide) (by decide) (by decide) (by decide) (by decide)⟩

/-- C20.  With `MAX_NR_ITEMS >= 1`, for every table `t`: along every sequence
of completed calls the number of non-empty slots does not decrease; a
completed `erase` leaves the set of non-empty slots as it is (the embedding
of `get` has no table among its results); a completed `insert` of a key that
`get` finds leaves it as it is; a completed `insert` of a key that `get` does
not find (also a key that was erased before) raises the number by exactly
one, and every completed `insert` is of one of these two kinds.  Starting
from the value-initialised table, after `n` inserts of the second kind,
mixed with any other calls, exactly `n` slots are non-empty, so an empty slot
remains if and only if `n < CAPACITY`. -/
theorem slots_consumed [Inhabited K] [Inhabited V] (N : Nat) (hN : 1 ≤ N) (h : K → Nat)
    (t : Items K V) :
    (∀ ops t2, Runs N h t ops t2 → (usedSlots N t).card ≤ (usedSlots N t2).card) ∧
    (∀ fuel k r t2, erase N h fuel t k = some (r, t2) → usedSlots N t2 = usedSlots N t) ∧
    (∀ fuel fuel2 k v v0 t2, get N h fuel2 t k = some (some v0) →
      insert N h fuel t k v = some t2 → usedSlots N t2 = usedSlots N t) ∧
    (∀ fuel fuel2 k v t2, get N h fuel2 t k = some none →
      insert N h fuel t k v = some t2 →
      (usedSlots N t2).card = (usedSlots N t).card + 1) ∧
    (∀ fuel k v t2, insert N h fuel t k v = some t2 →
      get N h fuel t k = some none ∨ ∃ v0, get N h fuel t k = some (some v0)) ∧
    (∀ n t2, RunsFresh N h (emptyItems : Items K V) n t2 →
      (usedSlots N t2).card = n ∧ (hasEmpty N t2 ↔ n < CAPACITY N)) := by
  refine ⟨?_, ?_, ?_, ?_, ?_, ?_⟩
  · intro ops t2 hr
    exact card_usedSlots_runs hN hr
  · intro fuel k r t2 her
    exact usedSlots_erase hN her
  · intro fuel fuel2 k v v0 t2 hg hins
    exact usedSlots_insert_live hN hg hins
  · intro fuel fuel2 k v t2 hg hins
    obtain ⟨s, hs, heq⟩ := usedSlots_insert_fresh hN hg hins
    rw [heq, Finset.card_insert_of_not_mem hs]
  · intro fuel k v t2 hins
    rw [insert_eq] at hins
    rw [get_eq]
    cases hf : findSlot N h fuel t k with
    | none => rw [hf] at hins; cases hins
    | some s =>
      rw [Option.map_some']
      cases hg : getAt t s with
      | none => exact Or.inl rfl
      | some v0 => exact Or.inr ⟨v0, rfl⟩
  · intro n t2 hr
    have hcard := card_usedSlots_runsFresh hN hr
    have hsum := card_usedSlots_add N t2
    refine ⟨hcard, ?_⟩
    rw [hasEmpty_iff_card]
    omega

/-- Instance of C20: `insert(5, 7); erase(5); insert(5, 8); erase(5)` on the
two-slot table contains two inserts of a key that is not live; afterwards both
slots are non-empty, no empty slot remains, and no key is live. -/
theorem slots_consumed_witness :
    RunsFresh 1 (fun k : Nat => k) (emptyItems : Items Nat Nat) 2 exampleFull ∧
    (usedSlots 1 exampleFull).card = 2 ∧ ¬ hasEmpty 1 exampleFull := by
  have hr : RunsFresh 1 (fun k : Nat => k) (emptyItems : Items Nat Nat) 2 exampleFull :=
    RunsFresh.erase 2 5 (some 8)
      (RunsFresh.fresh 2 2 5 8
        (RunsFresh.erase 2 5 (some 7)
          (RunsFresh.fresh 2 2 5 7 RunsFresh.nil rfl rfl) rfl) rfl rfl) rfl
  have hw := (slots_consumed 1 (by decide) (fun k : Nat => k)
    (emptyItems : Items Nat Nat)).2.2.2.2.2 2 exampleFull hr
  exact ⟨hr, hw.1, fun he => absurd (hw.2.1 he) (by decide)⟩

end Behaviour

end TTauri
